import Mathlib

/-!
Verification development for the TiWidget docking framework
(`src/widgetsBase`), a Qt-like docking-panel layout engine.

The C++ sources are shallowly embedded: `float` arithmetic is modelled by
exact rational arithmetic (`ℚ`), C++ object identity (node addresses) by an
explicit `nid : ℕ` field, and nullable `std::unique_ptr<Node>` slots by an
explicit `null` constructor of the tree type.  External collaborators
(panels) are modelled by an environment mapping a widget id to its reported
minimum size.  Every definition is transcribed from the named source
function it embeds.
-/

/-- Models DFPoint (core_types.h). -/
structure DFPoint where
  x : ℚ
  y : ℚ
deriving DecidableEq, Repr

/-- Models DFRect (core_types.h). -/
structure DFRect where
  x : ℚ
  y : ℚ
  width : ℚ
  height : ℚ
deriving DecidableEq, Repr

/-- Models DFRect::contains (core_types.h):
`p.x >= x && p.x <= x + width && p.y >= y && p.y <= y + height`. -/
def DFRect.contains (r : DFRect) (p : DFPoint) : Bool :=
  decide (r.x ≤ p.x) && decide (p.x ≤ r.x + r.width) &&
  decide (r.y ≤ p.y) && decide (p.y ≤ r.y + r.height)

/-- Models DFSize (core_types.h). -/
structure DFSize where
  width : ℚ
  height : ℚ
deriving DecidableEq, Repr

/-- Models std::clamp(v, lo, hi): lo if v < lo, hi if hi < v, else v. -/
def clampQ (v lo hi : ℚ) : ℚ :=
  if v < lo then lo else if hi < v then hi else v

/-- Models std::clamp on int (used for activeTab). -/
def clampZ (v lo hi : ℤ) : ℤ :=
  if v < lo then lo else if hi < v then hi else v

/-- Models DockLayout::Node::Type (dock_layout.h). -/
inductive NodeType where
  | Split
  | Tab
  | Widget
deriving DecidableEq, Repr

/-- Models DockLayout::Node::SplitSizing (dock_layout.h). -/
inductive SplitSizing where
  | Ratio
  | FixedFirst
  | FixedSecond
deriving DecidableEq, Repr

/-- The scalar fields of DockLayout::Node (dock_layout.h), with the C++
default member initializers.  `nid` is the embedding of the node's object
identity (its address); `widget` is the nullable DockWidget pointer,
modelled as an optional widget id. -/
structure NodeData where
  type : NodeType := NodeType.Widget
  nid : ℕ := 0
  bounds : DFRect := ⟨0, 0, 0, 0⟩
  widget : Option ℕ := none
  ratio : ℚ := 1/2
  vertical : Bool := true
  splitSizing : SplitSizing := SplitSizing.Ratio
  fixedSize : ℚ := 220
  minFirstSize : ℚ := 120
  minSecondSize : ℚ := 120
  calculatedMinWidth : ℚ := 120
  calculatedMinHeight : ℚ := 120
  activeTab : ℤ := 0
  tabBarHeight : ℚ := 26
deriving DecidableEq, Repr

/-- Result of the computeSizes lambda in DockLayout::updateNode: the two
side extents plus the node data with the synced ratio/fixedSize written
back. -/
structure SizeResult where
  firstSize : ℚ
  secondSize : ℚ
  data : NodeData
deriving DecidableEq, Repr

/-- Models the computeSizes lambda of DockLayout::updateNode
(dock_layout.h lines 231-269), as a function of the node's fields and the
container extent `total` along the split axis. -/
def computeSizes (d : NodeData) (total : ℚ) : SizeResult :=
  let clampedTotal := max 0 total
  let minFirst0 := clampQ d.minFirstSize 0 clampedTotal
  let minSecond0 := clampQ d.minSecondSize 0 clampedTotal
  let minSum := minFirst0 + minSecond0
  let scale := clampedTotal / minSum
  let minFirst := if 0 < clampedTotal ∧ clampedTotal < minSum then minFirst0 * scale else minFirst0
  let minSecond := if 0 < clampedTotal ∧ clampedTotal < minSum then minSecond0 * scale else minSecond0
  let firstReq :=
    match d.splitSizing with
    | SplitSizing.FixedFirst => d.fixedSize
    | SplitSizing.FixedSecond => clampedTotal - d.fixedSize
    | SplitSizing.Ratio => clampedTotal * clampQ d.ratio 0 1
  let maxFirst0 := max 0 (clampedTotal - minSecond)
  let maxFirst := if maxFirst0 < minFirst then minFirst else maxFirst0
  let firstSize := clampQ firstReq minFirst maxFirst
  let secondSize := clampedTotal - firstSize
  let ratio1 := if 0 < clampedTotal then firstSize / clampedTotal else d.ratio
  let fixedSize1 :=
    match d.splitSizing with
    | SplitSizing.FixedFirst => firstSize
    | SplitSizing.FixedSecond => secondSize
    | SplitSizing.Ratio => d.fixedSize
  ⟨firstSize, secondSize, { d with ratio := ratio1, fixedSize := fixedSize1 }⟩

/-- Models DockSplitter::SPLITTER_THICKNESS (dock_splitter.h). -/
def SPLITTER_THICKNESS : ℚ := 4

/-- Models DockSplitter::SPLITTER_HOVER_THICKNESS (dock_splitter.h). -/
def SPLITTER_HOVER_THICKNESS : ℚ := 8

/-- The candidate first-side size DockSplitter::updateDrag derives from the
pointer position and the recorded grab offset (dock_splitter.cpp lines
143-150). -/
def dragRequestedFirst (vertical : Bool) (parentBounds : DFRect)
    (grabOffset : ℚ) (p : DFPoint) : ℚ :=
  if vertical then (p.x - grabOffset) - parentBounds.x
  else (p.y - grabOffset) - parentBounds.y

/-- Models the body of DockSplitter::updateDrag (dock_splitter.cpp lines
113-167) after the active splitter's parent bounds have been refreshed:
given the active split node's data, returns the computed first/second sizes
and the node data with ratio/fixedSize written back, or `none` when
`available <= 0` and the function returns without mutating anything. -/
def splitterUpdateDrag (vertical : Bool) (parentBounds : DFRect)
    (grabOffset : ℚ) (d : NodeData) (p : DFPoint) : Option SizeResult :=
  let total := if vertical then parentBounds.width else parentBounds.height
  let available := max 0 (total - SPLITTER_THICKNESS)
  if available ≤ 0 then none
  else
    let minFirst0 := clampQ d.minFirstSize 0 available
    let minSecond0 := clampQ d.minSecondSize 0 available
    let minSum := minFirst0 + minSecond0
    let scale := available / minSum
    let minFirst := if available < minSum then minFirst0 * scale else minFirst0
    let minSecond := if available < minSum then minSecond0 * scale else minSecond0
    let firstSize0 := dragRequestedFirst vertical parentBounds grabOffset p
    let maxFirst0 := max 0 (available - minSecond)
    let maxFirst := if maxFirst0 < minFirst then minFirst else maxFirst0
    let firstSize := clampQ firstSize0 minFirst maxFirst
    let secondSize := available - firstSize
    let ratio1 := if 0 < available then firstSize / available else 1/2
    let fixedSize1 :=
      match d.splitSizing with
      | SplitSizing.FixedFirst => firstSize
      | SplitSizing.FixedSecond => secondSize
      | SplitSizing.Ratio => d.fixedSize
    some ⟨firstSize, secondSize, { d with ratio := ratio1, fixedSize := fixedSize1 }⟩

/-- clampQ lands in the interval when it is non-degenerate. -/
theorem clampQ_mem (v : ℚ) {lo hi : ℚ} (h : lo ≤ hi) :
    lo ≤ clampQ v lo hi ∧ clampQ v lo hi ≤ hi := by
  unfold clampQ
  split_ifs with h1 h2 <;> constructor <;> linarith

/-- clampQ of a value already in the interval is that value. -/
theorem clampQ_of_mem {v lo hi : ℚ} (h1 : lo ≤ v) (h2 : v ≤ hi) :
    clampQ v lo hi = v := by
  unfold clampQ
  split_ifs <;> linarith

/-- The first-side size computed by computeSizes always lies between 0 and
the clamped total. -/
theorem computeSizes_firstSize_mem (d : NodeData) (total : ℚ) :
    0 ≤ (computeSizes d total).firstSize ∧
    (computeSizes d total).firstSize ≤ max 0 total := by
  unfold computeSizes
  set ct := max 0 total with hct
  have hct0 : 0 ≤ ct := le_max_left 0 total
  have hm1 := clampQ_mem d.minFirstSize hct0
  have hm2 := clampQ_mem d.minSecondSize hct0
  set m1 := clampQ d.minFirstSize 0 ct
  set m2 := clampQ d.minSecondSize 0 ct
  simp only
  split_ifs with hcomp hmaxlt hmaxlt
  · -- compression, maxFirst floored to minFirst
    obtain ⟨hpos, hlt⟩ := hcomp
    have hms : 0 < m1 + m2 := lt_trans hpos hlt
    have h1 : (0:ℚ) ≤ m1 * (ct / (m1 + m2)) :=
      mul_nonneg hm1.1 (div_nonneg hct0 hms.le)
    have h2 : m1 * (ct / (m1 + m2)) ≤ ct := by
      rw [mul_div_assoc'] at *
      rw [div_le_iff hms]
      nlinarith [hm2.1]
    constructor
    · exact le_trans h1 (clampQ_mem _ le_rfl).1
    · exact le_trans (clampQ_mem _ le_rfl).2 h2
  · -- compression, maxFirst not floored
    obtain ⟨hpos, hlt⟩ := hcomp
    have hms : 0 < m1 + m2 := lt_trans hpos hlt
    have h1 : (0:ℚ) ≤ m1 * (ct / (m1 + m2)) :=
      mul_nonneg hm1.1 (div_nonneg hct0 hms.le)
    have hle : m1 * (ct / (m1 + m2)) ≤ max 0 (ct - m2 * (ct / (m1 + m2))) :=
      not_lt.mp hmaxlt
    have h2 : max 0 (ct - m2 * (ct / (m1 + m2))) ≤ ct := by
      apply max_le hct0
      have : 0 ≤ m2 * (ct / (m1 + m2)) :=
        mul_nonneg hm2.1 (div_nonneg hct0 hms.le)
      linarith
    have := clampQ_mem (v := match d.splitSizing with
      | SplitSizing.FixedFirst => d.fixedSize
      | SplitSizing.FixedSecond => ct - d.fixedSize
      | SplitSizing.Ratio => ct * clampQ d.ratio 0 1) hle
    constructor
    · exact le_trans h1 this.1
    · exact le_trans this.2 h2
  · -- no compression, maxFirst floored to minFirst
    constructor
    · exact le_trans hm1.1 (clampQ_mem _ le_rfl).1
    · exact le_trans (clampQ_mem _ le_rfl).2 hm1.2
  · -- no compression, maxFirst not floored
    have hle : m1 ≤ max 0 (ct - m2) := not_lt.mp hmaxlt
    have h2 : max 0 (ct - m2) ≤ ct := max_le hct0 (by linarith [hm2.1])
    have := clampQ_mem (v := match d.splitSizing with
      | SplitSizing.FixedFirst => d.fixedSize
      | SplitSizing.FixedSecond => ct - d.fixedSize
      | SplitSizing.Ratio => ct * clampQ d.ratio 0 1) hle
    constructor
    · exact le_trans hm1.1 this.1
    · exact le_trans this.2 h2

/-- When the available extent is positive, DockSplitter::updateDrag computes
exactly what the computeSizes lambda of DockLayout::updateNode computes for
a total equal to that available extent and a FixedFirst request equal to the
pointer-derived candidate size. -/
theorem splitterUpdateDrag_eq_computeSizes (vertical : Bool) (pb : DFRect)
    (grab : ℚ) (d : NodeData) (p : DFPoint)
    (h : 0 < (if vertical then pb.width else pb.height) - SPLITTER_THICKNESS) :
    (splitterUpdateDrag vertical pb grab d p).map
        (fun r => (r.firstSize, r.secondSize, r.data.ratio)) =
      some ((fun r => (r.firstSize, r.secondSize, r.data.ratio))
        (computeSizes
          { d with splitSizing := SplitSizing.FixedFirst,
                   fixedSize := dragRequestedFirst vertical pb grab p }
          ((if vertical then pb.width else pb.height) - SPLITTER_THICKNESS))) := by
  cases vertical with
  | true =>
    simp only [if_true] at h
    have hmax : max 0 (pb.width - SPLITTER_THICKNESS) = pb.width - SPLITTER_THICKNESS :=
      max_eq_right h.le
    simp only [splitterUpdateDrag, computeSizes, if_true, hmax,
      if_neg (not_le.mpr h), Option.map_some, eq_true h, true_and, if_true]
    rfl
  | false =>
    simp only [Bool.false_eq_true, if_false] at h
    have hmax : max 0 (pb.height - SPLITTER_THICKNESS) = pb.height - SPLITTER_THICKNESS :=
      max_eq_right h.le
    simp only [splitterUpdateDrag, computeSizes, Bool.false_eq_true, if_false, hmax,
      if_neg (not_le.mpr h), Option.map_some, eq_true h, true_and, if_true]
    rfl

/-- C2 (counterexample): for the same split node (minFirstSize = 0,
minSecondSize = 0, FixedFirst request of 100) and the same parent extent
100, DockSplitter::updateDrag yields a first-side size of 96 (it clamps
against total minus the splitter thickness), while the computeSizes lambda
of DockLayout::updateNode yields 100 for the same requested first-side
size, so the two clamp/compression computations are not equal as functions
of (total, minFirst, minSecond, requested). -/
theorem C2_counterexample :
    (splitterUpdateDrag true ⟨0, 0, 100, 50⟩ 0
        { type := NodeType.Split, splitSizing := SplitSizing.FixedFirst,
          fixedSize := 100, minFirstSize := 0, minSecondSize := 0 }
        ⟨100, 25⟩).map SizeResult.firstSize = some 96 ∧
    (computeSizes
        { type := NodeType.Split, splitSizing := SplitSizing.FixedFirst,
          fixedSize := 100, minFirstSize := 0, minSecondSize := 0 }
        100).firstSize = 100 ∧
    dragRequestedFirst true ⟨0, 0, 100, 50⟩ 0 ⟨100, 25⟩ = 100 := by
  refine ⟨?_, ?_, ?_⟩ <;>
    norm_num [splitterUpdateDrag, computeSizes, dragRequestedFirst, clampQ,
      SPLITTER_THICKNESS]

/-- C2 (amended): DockSplitter::updateDrag applies exactly the same
minimum-clamp and proportional-compression computation as the computeSizes
lambda of DockLayout::updateNode, but applied to the available extent
(parent extent minus SPLITTER_THICKNESS) rather than the full parent
extent: whenever that available extent is positive, the first-side size,
second-side size and written-back ratio produced by updateDrag from a
pointer position equal those produced by computeSizes for a total equal
to the available extent and a FixedFirst request equal to the
pointer-derived candidate first-side size. -/
theorem C2_theorem (vertical : Bool) (pb : DFRect) (grab : ℚ) (d : NodeData)
    (p : DFPoint)
    (h : 0 < (if vertical then pb.width else pb.height) - SPLITTER_THICKNESS) :
    (splitterUpdateDrag vertical pb grab d p).map
        (fun r => (r.firstSize, r.secondSize, r.data.ratio)) =
      some ((fun r => (r.firstSize, r.secondSize, r.data.ratio))
        (computeSizes
          { d with splitSizing := SplitSizing.FixedFirst,
                   fixedSize := dragRequestedFirst vertical pb grab p }
          ((if vertical then pb.width else pb.height) - SPLITTER_THICKNESS))) :=
  splitterUpdateDrag_eq_computeSizes vertical pb grab d p h

/-- C2 (witness): the amended theorem applied at a concrete input. -/
theorem C2_witness :
    ((0:ℚ) < (if true then (100:ℚ) else 50) - SPLITTER_THICKNESS) ∧
    (splitterUpdateDrag true ⟨0, 0, 100, 50⟩ 0
        { type := NodeType.Split, minFirstSize := 0, minSecondSize := 0 }
        ⟨30, 25⟩).map
        (fun r => (r.firstSize, r.secondSize, r.data.ratio)) =
      some ((fun r => (r.firstSize, r.secondSize, r.data.ratio))
        (computeSizes
          { ({ type := NodeType.Split, minFirstSize := 0, minSecondSize := 0 } : NodeData) with
            splitSizing := SplitSizing.FixedFirst,
            fixedSize := dragRequestedFirst true ⟨0, 0, 100, 50⟩ 0 ⟨30, 25⟩ }
          ((if true then (100:ℚ) else 50) - SPLITTER_THICKNESS))) :=
  ⟨by norm_num [SPLITTER_THICKNESS],
   C2_theorem true ⟨0, 0, 100, 50⟩ 0
     { type := NodeType.Split, minFirstSize := 0, minSecondSize := 0 }
     ⟨30, 25⟩ (by norm_num [SPLITTER_THICKNESS])⟩

/-- For a positive total, the ratio written back by computeSizes is the
computed first-side size divided by the total. -/
theorem computeSizes_ratio_eq (d : NodeData) {total : ℚ} (h : 0 < total) :
    (computeSizes d total).data.ratio = (computeSizes d total).firstSize / total := by
  have hmax : max 0 total = total := max_eq_right h.le
  simp only [computeSizes, hmax, if_pos h]

/-- C10: every operation that writes a Split node's ratio keeps it in
[0,1].  After the computeSizes pass of DockLayout::updateNode with a
positive extent, ratio = firstSize/total with firstSize in [0, total];
after DockSplitter::updateDrag mutates its node (which requires a positive
available extent), ratio = firstSize/available with firstSize in
[0, available], where available is the parent extent minus the splitter
thickness. -/
theorem C10_theorem :
    (∀ (d : NodeData) (total : ℚ), 0 < total →
      0 ≤ (computeSizes d total).firstSize ∧
      (computeSizes d total).firstSize ≤ total ∧
      (computeSizes d total).data.ratio = (computeSizes d total).firstSize / total ∧
      0 ≤ (computeSizes d total).data.ratio ∧
      (computeSizes d total).data.ratio ≤ 1) ∧
    (∀ (vertical : Bool) (pb : DFRect) (grab : ℚ) (d : NodeData) (p : DFPoint)
        (r : SizeResult),
      splitterUpdateDrag vertical pb grab d p = some r →
      0 ≤ r.firstSize ∧
      r.firstSize ≤ (if vertical then pb.width else pb.height) - SPLITTER_THICKNESS ∧
      r.data.ratio =
        r.firstSize / ((if vertical then pb.width else pb.height) - SPLITTER_THICKNESS) ∧
      0 ≤ r.data.ratio ∧ r.data.ratio ≤ 1) := by
  have layoutPart : ∀ (d : NodeData) (total : ℚ), 0 < total →
      0 ≤ (computeSizes d total).firstSize ∧
      (computeSizes d total).firstSize ≤ total ∧
      (computeSizes d total).data.ratio = (computeSizes d total).firstSize / total ∧
      0 ≤ (computeSizes d total).data.ratio ∧
      (computeSizes d total).data.ratio ≤ 1 := by
    intro d total h
    have hmax : max 0 total = total := max_eq_right h.le
    have hmem := computeSizes_firstSize_mem d total
    rw [hmax] at hmem
    have hratio := computeSizes_ratio_eq d h
    refine ⟨hmem.1, hmem.2, hratio, ?_, ?_⟩
    · rw [hratio]
      exact div_nonneg hmem.1 h.le
    · rw [hratio]
      exact (div_le_one h).mpr hmem.2
  refine ⟨layoutPart, ?_⟩
  intro vertical pb grab d p r hsome
  by_cases hc : (if vertical then pb.width else pb.height) - SPLITTER_THICKNESS ≤ 0
  · have hmax0 : max 0 ((if vertical then pb.width else pb.height) - SPLITTER_THICKNESS) = 0 :=
      max_eq_left hc
    simp only [splitterUpdateDrag, hmax0, le_refl, if_true] at hsome
    exact Option.noConfusion hsome
  · have hpos : 0 < (if vertical then pb.width else pb.height) - SPLITTER_THICKNESS :=
      not_le.mp hc
    have heq := splitterUpdateDrag_eq_computeSizes vertical pb grab d p hpos
    rw [hsome] at heq
    simp only [Option.map_some', Option.some.injEq, Prod.mk.injEq] at heq
    obtain ⟨hf, hs, hr⟩ := heq
    have hl := layoutPart
      { d with splitSizing := SplitSizing.FixedFirst,
               fixedSize := dragRequestedFirst vertical pb grab p }
      ((if vertical then pb.width else pb.height) - SPLITTER_THICKNESS) hpos
    rw [hf, hr]
    exact ⟨hl.1, hl.2.1, hl.2.2.1, hl.2.2.2.1, hl.2.2.2.2⟩

/-- C10 (witness): the theorem applied at concrete inputs. -/
theorem C10_witness :
    ((0:ℚ) < 100 ∧
      0 ≤ (computeSizes { type := NodeType.Split } 100).firstSize ∧
      (computeSizes { type := NodeType.Split } 100).firstSize ≤ 100 ∧
      (computeSizes { type := NodeType.Split } 100).data.ratio =
        (computeSizes { type := NodeType.Split } 100).firstSize / 100 ∧
      0 ≤ (computeSizes { type := NodeType.Split } 100).data.ratio ∧
      (computeSizes { type := NodeType.Split } 100).data.ratio ≤ 1) ∧
    (splitterUpdateDrag true ⟨0, 0, 100, 50⟩ 0
        { type := NodeType.Split, minFirstSize := 0, minSecondSize := 0 } ⟨30, 25⟩ =
      some ⟨30, 66, { type := NodeType.Split, minFirstSize := 0, minSecondSize := 0,
                      ratio := 5/16 }⟩ ∧
      0 ≤ (30:ℚ) ∧ (30:ℚ) ≤ (if true then (100:ℚ) else 50) - SPLITTER_THICKNESS) := by
  have hdrag : splitterUpdateDrag true ⟨0, 0, 100, 50⟩ 0
      { type := NodeType.Split, minFirstSize := 0, minSecondSize := 0 } ⟨30, 25⟩ =
      some ⟨30, 66, { type := NodeType.Split, minFirstSize := 0, minSecondSize := 0,
                      ratio := 5/16 }⟩ := by
    norm_num [splitterUpdateDrag, dragRequestedFirst, clampQ, SPLITTER_THICKNESS]
  have h2 := (C10_theorem.2 true ⟨0, 0, 100, 50⟩ 0
      { type := NodeType.Split, minFirstSize := 0, minSecondSize := 0 } ⟨30, 25⟩
      ⟨30, 66, { type := NodeType.Split, minFirstSize := 0, minSecondSize := 0,
                 ratio := 5/16 }⟩ hdrag)
  refine ⟨⟨by norm_num, C10_theorem.1 { type := NodeType.Split } 100 (by norm_num)⟩,
    hdrag, h2.1, h2.2.1⟩

/-- Models the recursive DockLayout::Node tree (dock_layout.h): `null`
embeds an empty `std::unique_ptr<Node>` slot, and a `node` carries the
scalar fields plus the `first`/`second` slots and the `children` vector
(whose entries may themselves be null slots). -/
inductive LNode where
  | null : LNode
  | node (d : NodeData) (first second : LNode) (children : List LNode) : LNode

/-- Size measure of a tree, used as recursion fuel for the normalization
pass (whose C++ recursion re-normalizes an already-normalized child after a
collapse). -/
def LNode.size : LNode → ℕ
  | .null => 0
  | .node _ f s cs => 1 + f.size + s.size + sizeList cs
where sizeList : List LNode → ℕ
  | [] => 0
  | c :: cs => c.size + sizeList cs

/-- The calculatedMinWidth of a possibly-null node slot, 0 for null
(embeds the C++ pattern `node->first ? node->first->calculatedMinWidth :
0.0f`). -/
def LNode.minW : LNode → ℚ
  | .null => 0
  | .node d _ _ _ => d.calculatedMinWidth

/-- The calculatedMinHeight of a possibly-null node slot, 0 for null. -/
def LNode.minH : LNode → ℚ
  | .null => 0
  | .node d _ _ _ => d.calculatedMinHeight

/-- The scalar data of a non-null node (default-constructed data for
null; only used to inspect results known to be non-null). -/
def LNode.getData : LNode → NodeData
  | .null => {}
  | .node d _ _ _ => d

/-- The accumulation loop of the Tab branch of recalculateMinSizes over the
(already recalculated) children: accumulates (maxW, totalH, hasChild),
skipping null slots; called with (0, 0, false). -/
def tabFold (acc : ℚ × ℚ × Bool) : List LNode → ℚ × ℚ × Bool
  | [] => acc
  | .null :: cs => tabFold acc cs
  | .node d _ _ _ :: cs =>
    tabFold (max acc.1 d.calculatedMinWidth, acc.2.1 + d.calculatedMinHeight, true) cs


mutual

/-- Models DockLayout::recalculateMinSizes (dock_layout.h lines 61-133):
the bottom-up minimum-size recursion.  `env w` is the externally reported
minimum size of the panel with id `w` (DockWidget::minimumSize()).  The
fallback floor `defaultMin` is 120 and `splitterThickness` is 4, as in the
source. -/
def recalcMinSizes (env : ℕ → DFSize) : LNode → LNode
  | .null => .null
  | .node d f s cs =>
    match d.type with
    | NodeType.Widget =>
      let min : DFSize := match d.widget with
        | some w => env w
        | none => ⟨0, 0⟩
      .node { d with
        calculatedMinWidth := if 0 < min.width then min.width else 120,
        calculatedMinHeight := if 0 < min.height then min.height else 120 } f s cs
    | NodeType.Tab =>
      let cs1 := recalcList env cs
      let folded := tabFold (0, 0, false) cs1
      let maxW := if folded.2.2 then folded.1 else 120
      let totalH := if folded.2.2 then folded.2.1 else 120
      .node { d with
        calculatedMinWidth := maxW,
        calculatedMinHeight := totalH } f s cs1
    | NodeType.Split =>
      let f1 := recalcMinSizes env f
      let s1 := recalcMinSizes env s
      let w1 := f1.minW
      let h1 := f1.minH
      let w2 := s1.minW
      let h2 := s1.minH
      if d.vertical then
        .node { d with
          calculatedMinWidth := w1 + w2 + 4,
          calculatedMinHeight := max h1 h2,
          minFirstSize := w1,
          minSecondSize := w2 } f1 s1 cs
      else
        .node { d with
          calculatedMinWidth := max w1 w2,
          calculatedMinHeight := h1 + h2 + 4,
          minFirstSize := h1,
          minSecondSize := h2 } f1 s1 cs

/-- recalculateMinSizes applied to each entry of a children vector (the
C++ loop recalculates each non-null child in place; a null slot stays
null). -/
def recalcList (env : ℕ → DFSize) : List LNode → List LNode
  | [] => []
  | c :: cs => recalcMinSizes env c :: recalcList env cs

end

/-- recalcList is the elementwise map of recalcMinSizes. -/
theorem recalcList_eq_map (env : ℕ → DFSize) (cs : List LNode) :
    recalcList env cs = cs.map (recalcMinSizes env) := by
  induction cs with
  | nil => rfl
  | cons c cs ih => simp [recalcList, ih]

/-- recalcMinSizes never turns a non-null node into null. -/
theorem recalcMinSizes_ne_null (env : ℕ → DFSize) {t : LNode} (h : t ≠ LNode.null) :
    recalcMinSizes env t ≠ LNode.null := by
  cases t with
  | null => exact absurd rfl h
  | node d f s cs =>
    cases htype : d.type <;>
      simp [recalcMinSizes, htype] <;>
      split <;> simp

/-- The seed of a foldl max is below the result, and so is every element. -/
theorem foldl_max_bounds (l : List ℚ) (a : ℚ) :
    a ≤ l.foldl max a ∧ ∀ x ∈ l, x ≤ l.foldl max a := by
  induction l generalizing a with
  | nil => simp
  | cons y l ih =>
    refine ⟨le_trans (le_max_left a y) (ih (max a y)).1, ?_⟩
    intro x hx
    rcases List.mem_cons.mp hx with hxy | hxl
    · subst hxy
      exact le_trans (le_max_right a x) (ih (max a x)).1
    · exact (ih (max a y)).2 x hxl

/-- Unfolding of the Tab accumulation loop over all-non-null children:
it computes a running max of the calculated minimum widths, a running sum
of the calculated minimum heights, and whether any child was seen. -/
theorem tabFold_spec (cs : List LNode) (h : ∀ c ∈ cs, c ≠ LNode.null)
    (a b : ℚ) (flag : Bool) :
    tabFold (a, b, flag) cs =
      ((cs.map LNode.minW).foldl max a,
       b + (cs.map LNode.minH).sum,
       flag || !cs.isEmpty) := by
  induction cs generalizing a b flag with
  | nil => simp [tabFold]
  | cons c cs ih =>
    cases c with
    | null => exact absurd rfl (h _ (List.mem_cons_self _ _))
    | node d f s cc =>
      have hrest : ∀ x ∈ cs, x ≠ LNode.null := fun x hx => h x (List.mem_cons_of_mem _ hx)
      simp only [tabFold, ih hrest, List.map_cons, List.foldl_cons, List.sum_cons,
        LNode.minW, LNode.minH, List.isEmpty_cons, Prod.mk.injEq]
      refine ⟨trivial, by ring, by simp⟩

/-- C5: the bottom-up minimum-size recursion (DockLayout::recalculateMinSizes)
computes: for a Widget node, each dimension is the panel's reported minimum
when positive, else the fallback floor 120; for a vertical Split,
minWidth = firstMin + secondMin + splitterThickness (4) and minHeight =
max of the children's minHeights, with the per-side minimums stored in
minFirstSize/minSecondSize (horizontal split is the transpose); for a
non-empty Tab, minWidth = max over the children's recursively computed
minWidths and minHeight = the sum of their minHeights. -/
theorem C5_theorem (env : ℕ → DFSize) :
    (∀ (d : NodeData) (f s : LNode) (cs : List LNode) (w : ℕ),
      d.type = NodeType.Widget → d.widget = some w →
      (recalcMinSizes env (LNode.node d f s cs)).getData.calculatedMinWidth =
        (if 0 < (env w).width then (env w).width else 120) ∧
      (recalcMinSizes env (LNode.node d f s cs)).getData.calculatedMinHeight =
        (if 0 < (env w).height then (env w).height else 120)) ∧
    (∀ (d : NodeData) (f s : LNode) (cs : List LNode),
      d.type = NodeType.Split → d.vertical = true →
      (recalcMinSizes env (LNode.node d f s cs)).getData.calculatedMinWidth =
        (recalcMinSizes env f).minW + (recalcMinSizes env s).minW + 4 ∧
      (recalcMinSizes env (LNode.node d f s cs)).getData.calculatedMinHeight =
        max (recalcMinSizes env f).minH (recalcMinSizes env s).minH ∧
      (recalcMinSizes env (LNode.node d f s cs)).getData.minFirstSize =
        (recalcMinSizes env f).minW ∧
      (recalcMinSizes env (LNode.node d f s cs)).getData.minSecondSize =
        (recalcMinSizes env s).minW) ∧
    (∀ (d : NodeData) (f s : LNode) (cs : List LNode),
      d.type = NodeType.Split → d.vertical = false →
      (recalcMinSizes env (LNode.node d f s cs)).getData.calculatedMinWidth =
        max (recalcMinSizes env f).minW (recalcMinSizes env s).minW ∧
      (recalcMinSizes env (LNode.node d f s cs)).getData.calculatedMinHeight =
        (recalcMinSizes env f).minH + (recalcMinSizes env s).minH + 4 ∧
      (recalcMinSizes env (LNode.node d f s cs)).getData.minFirstSize =
        (recalcMinSizes env f).minH ∧
      (recalcMinSizes env (LNode.node d f s cs)).getData.minSecondSize =
        (recalcMinSizes env s).minH) ∧
    (∀ (d : NodeData) (f s : LNode) (cs : List LNode),
      d.type = NodeType.Tab → cs ≠ [] → (∀ c ∈ cs, c ≠ LNode.null) →
      (recalcMinSizes env (LNode.node d f s cs)).getData.calculatedMinWidth =
        ((cs.map (recalcMinSizes env)).map LNode.minW).foldl max 0 ∧
      (∀ c ∈ cs, (recalcMinSizes env c).minW ≤
        (recalcMinSizes env (LNode.node d f s cs)).getData.calculatedMinWidth) ∧
      (recalcMinSizes env (LNode.node d f s cs)).getData.calculatedMinHeight =
        ((cs.map (recalcMinSizes env)).map LNode.minH).sum) := by
  refine ⟨?_, ?_, ?_, ?_⟩
  · intro d f s cs w htype hw
    simp [recalcMinSizes, htype, hw, LNode.getData]
  · intro d f s cs htype hvert
    simp [recalcMinSizes, htype, hvert, LNode.getData]
  · intro d f s cs htype hvert
    simp [recalcMinSizes, htype, hvert, LNode.getData]
  · intro d f s cs htype hne hnonnull
    have hnn1 : ∀ c ∈ recalcList env cs, c ≠ LNode.null := by
      rw [recalcList_eq_map]
      intro c hc
      obtain ⟨c0, hc0, rfl⟩ := List.mem_map.mp hc
      exact recalcMinSizes_ne_null env (hnonnull c0 hc0)
    have hfold := tabFold_spec (recalcList env cs) hnn1 0 0 false
    have hempty : ((recalcList env cs).isEmpty) = false := by
      rw [recalcList_eq_map]
      cases cs with
      | nil => exact absurd rfl hne
      | cons c cs => rfl
    have hmain : (recalcMinSizes env (LNode.node d f s cs)).getData =
        { d with
          calculatedMinWidth := ((recalcList env cs).map LNode.minW).foldl max 0,
          calculatedMinHeight := 0 + ((recalcList env cs).map LNode.minH).sum } := by
      simp [recalcMinSizes, htype, LNode.getData, hfold, hempty]
    refine ⟨?_, ?_, ?_⟩
    · rw [hmain, recalcList_eq_map]
    · intro c hc
      rw [hmain]
      have : (recalcMinSizes env c).minW ∈ (recalcList env cs).map LNode.minW := by
        rw [recalcList_eq_map]
        exact List.mem_map_of_mem _ (List.mem_map_of_mem _ hc)
      exact (foldl_max_bounds _ 0).2 _ this
    · rw [hmain, recalcList_eq_map]
      simp

/-- C5 (witness): the theorem applied at a concrete environment and
concrete nodes. -/
theorem C5_witness :
    (({ type := NodeType.Widget, widget := some 7 } : NodeData).type = NodeType.Widget ∧
      ({ type := NodeType.Widget, widget := some 7 } : NodeData).widget = some 7 ∧
      (recalcMinSizes (fun _ => ⟨300, 200⟩) (LNode.node { type := NodeType.Widget, widget := some 7 } LNode.null LNode.null [])).getData.calculatedMinWidth =
        (if 0 < ((fun _ => (⟨300, 200⟩ : DFSize)) 7).width then ((fun _ => (⟨300, 200⟩ : DFSize)) 7).width else 120) ∧
      (recalcMinSizes (fun _ => ⟨300, 200⟩) (LNode.node { type := NodeType.Widget, widget := some 7 } LNode.null LNode.null [])).getData.calculatedMinHeight =
        (if 0 < ((fun _ => (⟨300, 200⟩ : DFSize)) 7).height then ((fun _ => (⟨300, 200⟩ : DFSize)) 7).height else 120)) ∧
    (([LNode.node { type := NodeType.Widget, widget := some 7 } LNode.null LNode.null [],
       LNode.node { type := NodeType.Widget, widget := some 8 } LNode.null LNode.null []] : List LNode) ≠ [] ∧
      (recalcMinSizes (fun _ => ⟨300, 200⟩)
        (LNode.node { type := NodeType.Tab }
          LNode.null LNode.null
          [LNode.node { type := NodeType.Widget, widget := some 7 } LNode.null LNode.null [],
           LNode.node { type := NodeType.Widget, widget := some 8 } LNode.null LNode.null []])).getData.calculatedMinWidth =
        (([LNode.node { type := NodeType.Widget, widget := some 7 } LNode.null LNode.null [],
           LNode.node { type := NodeType.Widget, widget := some 8 } LNode.null LNode.null []].map (recalcMinSizes (fun _ => ⟨300, 200⟩))).map LNode.minW).foldl max 0) := by
  have hwidget := (C5_theorem (fun _ => ⟨300, 200⟩)).1
    { type := NodeType.Widget, widget := some 7 } LNode.null LNode.null [] 7 rfl rfl
  have htab := ((C5_theorem (fun _ => ⟨300, 200⟩)).2.2.2
    { type := NodeType.Tab } LNode.null LNode.null
    [LNode.node { type := NodeType.Widget, widget := some 7 } LNode.null LNode.null [],
     LNode.node { type := NodeType.Widget, widget := some 8 } LNode.null LNode.null []]
    rfl (by simp)
    (by
      intro c hc
      rcases List.mem_cons.mp hc with h1 | h2
      · subst h1; exact fun h => LNode.noConfusion h
      · rw [List.mem_singleton] at h2
        subst h2; exact fun h => LNode.noConfusion h))
  exact ⟨⟨rfl, rfl, hwidget.1, hwidget.2⟩, by simp, htab.1⟩

/-- Tests whether a slot is an empty unique_ptr. -/
def LNode.isNull : LNode → Bool
  | .null => true
  | .node _ _ _ _ => false

/-- Tests whether a non-null node is a Tab node. -/
def LNode.isTab : LNode → Bool
  | .null => false
  | .node d _ _ _ => d.type == NodeType.Tab

/-- A member of a list weighs at most the whole list. -/
theorem size_le_sizeList {c : LNode} {cs : List LNode} (h : c ∈ cs) :
    c.size ≤ LNode.size.sizeList cs := by
  induction cs with
  | nil => cases h
  | cons x cs ih =>
    rcases List.mem_cons.mp h with h1 | h2
    · subst h1
      simp [LNode.size.sizeList]
    · have := ih h2
      simp only [LNode.size.sizeList]
      omega

/-- Filtering a list does not increase its total size. -/
theorem sizeList_filter_le (p : LNode → Bool) (cs : List LNode) :
    LNode.size.sizeList (cs.filter p) ≤ LNode.size.sizeList cs := by
  induction cs with
  | nil => simp [LNode.size.sizeList]
  | cons x cs ih =>
    simp only [List.filter_cons]
    split
    · simp only [LNode.size.sizeList]
      omega
    · simp only [LNode.size.sizeList]
      omega

/-- Models the orchestrator's file-local NormalizeNode
(dock_framework.cpp lines 141-181).  Unlike DockLayout::normalizeNode it
does not recurse into a Split's present children, does not normalize a
Tab's surviving children, and does not flatten tab-of-tab; it only
collapses the top of the tree. -/
def frameworkNormalizeNode : LNode → LNode
  | .null => .null
  | .node d f s cs =>
    if d.type = NodeType.Split then
      match f, s with
      | .null, .null => .null
      | .null, .node ds fs ss css => frameworkNormalizeNode (.node ds fs ss css)
      | .node df ff sf csf, .null => frameworkNormalizeNode (.node df ff sf csf)
      | .node df ff sf csf, .node ds fs ss css =>
        .node d (.node df ff sf csf) (.node ds fs ss css) cs
    else if d.type = NodeType.Tab then
      match hcs : cs.filter (fun c => !c.isNull) with
      | [] => .null
      | [c] => frameworkNormalizeNode c
      | c1 :: c2 :: rest =>
        .node { d with
          activeTab := clampZ d.activeTab 0 (((c1 :: c2 :: rest).length : ℤ) - 1) }
          f s (c1 :: c2 :: rest)
    else
      .node d f s cs
termination_by t => t.size
decreasing_by
  · simp [LNode.size]
    omega
  · simp [LNode.size]
    omega
  · have hc : c ∈ cs.filter (fun c => !c.isNull) := by
      rw [hcs]
      exact List.mem_singleton_self c
    have := size_le_sizeList (List.mem_of_mem_filter hc)
    have := sizeList_filter_le (fun c => !c.isNull) cs
    simp [LNode.size]
    omega

/-- The flattening loop of the Tab branch of DockLayout::normalizeNode
(dock_layout.h lines 157-170): a child that is itself a Tab with non-empty
children contributes its non-null grandchildren in place, a null child is
dropped, and any other child is kept. -/
def flattenTabChildren : List LNode → List LNode
  | [] => []
  | .null :: rest => flattenTabChildren rest
  | .node d f s gcs :: rest =>
    if d.type = NodeType.Tab ∧ gcs.isEmpty = false then
      gcs.filter (fun g => !g.isNull) ++ flattenTabChildren rest
    else
      .node d f s gcs :: flattenTabChildren rest

mutual

/-- Models DockLayout::normalizeNode (dock_layout.h lines 135-202), with an
explicit recursion fuel: the C++ recursion re-normalizes the surviving
child after a collapse, which is not structural, so the function returns
`none` when the fuel runs out (fuel at least the tree size plus one is
always enough, see layoutNormalizeFuel_total). -/
def layoutNormalizeFuel : ℕ → LNode → Option LNode
  | 0, _ => none
  | _ + 1, .null => some LNode.null
  | n + 1, .node d f s cs => do
    let f1 ← layoutNormalizeFuel n f
    let s1 ← layoutNormalizeFuel n s
    let cs0 ← normalizeListFuel n cs
    let cs1 := cs0.filter (fun c => !c.isNull)
    match d.type with
    | NodeType.Widget =>
      match d.widget with
      | none => some LNode.null
      | some _ => some (LNode.node d f1 s1 cs1)
    | NodeType.Tab =>
      match flattenTabChildren cs1 with
      | [] => some LNode.null
      | [c] => layoutNormalizeFuel n c
      | c1 :: c2 :: rest =>
        some (LNode.node
          { d with activeTab := clampZ d.activeTab 0 (((c1 :: c2 :: rest).length : ℤ) - 1) }
          f1 s1 (c1 :: c2 :: rest))
    | NodeType.Split =>
      match f1, s1 with
      | LNode.null, LNode.null => some LNode.null
      | LNode.null, LNode.node ds fs ss css => layoutNormalizeFuel n (LNode.node ds fs ss css)
      | LNode.node df ff sf csf, LNode.null => layoutNormalizeFuel n (LNode.node df ff sf csf)
      | f1, s1 => some (LNode.node d f1 s1 cs1)
termination_by n t => (n, 0)

/-- DockLayout::normalizeNode applied to each entry of a children vector. -/
def normalizeListFuel : ℕ → List LNode → Option (List LNode)
  | _, [] => some []
  | n, c :: rest => do
    let c1 ← layoutNormalizeFuel n c
    let rest1 ← normalizeListFuel n rest
    some (c1 :: rest1)
termination_by n cs => (n, cs.length + 1)

end

/-- sizeList distributes over append. -/
theorem sizeList_append (a b : List LNode) :
    LNode.size.sizeList (a ++ b) = LNode.size.sizeList a + LNode.size.sizeList b := by
  induction a with
  | nil => simp [LNode.size.sizeList]
  | cons x a ih =>
    show x.size + LNode.size.sizeList (a ++ b) =
      x.size + LNode.size.sizeList a + LNode.size.sizeList b
    omega

/-- Flattening tab children does not increase the total size. -/
theorem sizeList_flatten_le (l : List LNode) :
    LNode.size.sizeList (flattenTabChildren l) ≤ LNode.size.sizeList l := by
  induction l with
  | nil => simp [flattenTabChildren, LNode.size.sizeList]
  | cons c rest ih =>
    cases c with
    | null =>
      simp only [flattenTabChildren, LNode.size.sizeList]
      omega
    | node d f s gcs =>
      simp only [flattenTabChildren]
      split
      · rw [sizeList_append]
        have h1 := sizeList_filter_le (fun g => !g.isNull) gcs
        simp only [LNode.size.sizeList, LNode.size]
        omega
      · simp only [LNode.size.sizeList, LNode.size]
        omega

/-- With fuel strictly above the tree size, the fuelled normalization pass
succeeds, and the result is no larger than the input. -/
theorem layoutNormalizeFuel_total (n : ℕ) :
    (∀ t : LNode, t.size < n →
      ∃ u, layoutNormalizeFuel n t = some u ∧ u.size ≤ t.size) ∧
    (∀ cs : List LNode, LNode.size.sizeList cs < n →
      ∃ us, normalizeListFuel n cs = some us ∧
        LNode.size.sizeList us ≤ LNode.size.sizeList cs) := by
  induction n using Nat.strong_induction_on with
  | _ n ih =>
    have nodePart : ∀ t : LNode, t.size < n →
        ∃ u, layoutNormalizeFuel n t = some u ∧ u.size ≤ t.size := by
      intro t ht
      match n, t with
      | 0, t => omega
      | m + 1, LNode.null =>
        exact ⟨LNode.null, by simp [layoutNormalizeFuel], le_refl _⟩
      | m + 1, LNode.node d f s cs =>
        have hm : m < m + 1 := Nat.lt_succ_self m
        simp only [LNode.size] at ht
        have hfm : f.size < m := by omega
        have hsm : s.size < m := by omega
        have hcsm : LNode.size.sizeList cs < m := by omega
        obtain ⟨f1, hf1, hf1s⟩ := (ih m hm).1 f hfm
        obtain ⟨s1, hs1, hs1s⟩ := (ih m hm).1 s hsm
        obtain ⟨cs0, hcs0, hcs0s⟩ := (ih m hm).2 cs hcsm
        have hcs1s : LNode.size.sizeList (cs0.filter (fun c => !c.isNull)) ≤
            LNode.size.sizeList cs0 := sizeList_filter_le _ cs0
        simp only [layoutNormalizeFuel, hf1, hs1, hcs0, Option.bind_eq_bind,
          Option.some_bind]
        cases htype : d.type with
        | Widget =>
          cases hw : d.widget with
          | none => exact ⟨LNode.null, rfl, by simp [LNode.size]⟩
          | some w =>
            refine ⟨LNode.node d f1 s1 (cs0.filter (fun c => !c.isNull)), rfl, ?_⟩
            simp only [LNode.size]
            omega
        | Tab =>
          cases hfl : flattenTabChildren (cs0.filter (fun c => !c.isNull)) with
          | nil => exact ⟨LNode.null, rfl, by simp [LNode.size]⟩
          | cons c1 crest =>
            have hflsize : LNode.size.sizeList (flattenTabChildren
                (cs0.filter (fun c => !c.isNull))) ≤ LNode.size.sizeList cs0 :=
              le_trans (sizeList_flatten_le _) hcs1s
            rw [hfl] at hflsize
            cases crest with
            | nil =>
              simp only [LNode.size.sizeList] at hflsize
              have hc1 : c1.size < m := by omega
              obtain ⟨u, hu, hus⟩ := (ih m hm).1 c1 hc1
              refine ⟨u, hu, ?_⟩
              simp only [LNode.size]
              omega
            | cons c2 rest =>
              refine ⟨_, rfl, ?_⟩
              simp only [LNode.size]
              omega
        | Split =>
          cases f1 with
          | null =>
            cases s1 with
            | null =>
              refine ⟨LNode.null, rfl, ?_⟩
              simp only [LNode.size]
              omega
            | node ds fs ss css =>
              have hlt : (LNode.node ds fs ss css).size < m := by omega
              obtain ⟨u, hu, hus⟩ := (ih m hm).1 _ hlt
              refine ⟨u, hu, ?_⟩
              simp only [LNode.size]
              omega
          | node df ff sf csf =>
            cases s1 with
            | null =>
              have hlt : (LNode.node df ff sf csf).size < m := by omega
              obtain ⟨u, hu, hus⟩ := (ih m hm).1 _ hlt
              refine ⟨u, hu, ?_⟩
              simp only [LNode.size]
              omega
            | node ds fs ss css =>
              refine ⟨_, rfl, ?_⟩
              simp only [LNode.size] at hf1s hs1s ⊢
              omega
    refine ⟨nodePart, ?_⟩
    intro cs hcs
    induction cs with
    | nil => exact ⟨[], by simp [normalizeListFuel], le_refl _⟩
    | cons c rest ihl =>
      simp only [LNode.size.sizeList] at hcs
      have hc : c.size < n := by omega
      have hrest : LNode.size.sizeList rest < n := by omega
      obtain ⟨c1, hc1, hc1s⟩ := nodePart c hc
      obtain ⟨rest1, hrest1, hrest1s⟩ := ihl hrest
      refine ⟨c1 :: rest1, ?_, ?_⟩
      · simp only [normalizeListFuel, hc1, hrest1, Option.bind_eq_bind, Option.some_bind]
      · simp only [LNode.size.sizeList]
        omega

/-- Models DockLayout::normalizeNode as a total function: the fuel
`size + 1` always suffices (layoutNormalizeFuel_total). -/
def normalizeNode (t : LNode) : LNode :=
  (layoutNormalizeFuel (t.size + 1) t).getD LNode.null

/-- The fuelled pass at fuel size+1 indeed returns normalizeNode, and
normalization does not grow the tree. -/
theorem normalizeNode_spec (t : LNode) :
    layoutNormalizeFuel (t.size + 1) t = some (normalizeNode t) ∧
    (normalizeNode t).size ≤ t.size := by
  obtain ⟨u, hu, hus⟩ := (layoutNormalizeFuel_total (t.size + 1)).1 t (Nat.lt_succ_self _)
  rw [normalizeNode, hu]
  exact ⟨rfl, by simpa using hus⟩

/-- clampZ lands in the interval when it is non-degenerate. -/
theorem clampZ_mem (v : ℤ) {lo hi : ℤ} (h : lo ≤ hi) :
    lo ≤ clampZ v lo hi ∧ clampZ v lo hi ≤ hi := by
  unfold clampZ
  split_ifs <;> omega

/-- clampZ of a value already in the interval is that value. -/
theorem clampZ_of_mem {v lo hi : ℤ} (h1 : lo ≤ v) (h2 : v ≤ hi) :
    clampZ v lo hi = v := by
  unfold clampZ
  split_ifs <;> omega

mutual

/-- Full normalized-tree invariant established by DockLayout::normalizeNode
(and preserved by the geometry passes): every Split has both children,
every Tab has at least two non-null, non-Tab children and an in-range
activeTab, every Widget references a panel, and no node's children vector
contains a null slot. -/
def NormalizedB : LNode → Bool
  | .null => true
  | .node d f s cs =>
    NormalizedB f && NormalizedB s && NormalizedListB cs &&
    cs.all (fun c => !c.isNull) &&
    (match d.type with
     | NodeType.Widget => d.widget.isSome
     | NodeType.Split => !f.isNull && !s.isNull
     | NodeType.Tab =>
       decide (2 ≤ cs.length) && cs.all (fun c => !c.isTab) &&
       decide (0 ≤ d.activeTab) && decide (d.activeTab ≤ (cs.length : ℤ) - 1))

/-- NormalizedB over a children vector. -/
def NormalizedListB : List LNode → Bool
  | [] => true
  | c :: cs => NormalizedB c && NormalizedListB cs

end

mutual

/-- The four normalization properties stated by the specification: no
Split node with a missing child, no Tab node with fewer than two children,
no Tab node with a Tab node as direct child, and every Tab's activeTab in
[0, children.size()-1]. -/
def ClaimNormalizedB : LNode → Bool
  | .null => true
  | .node d f s cs =>
    ClaimNormalizedB f && ClaimNormalizedB s && ClaimNormalizedListB cs &&
    (match d.type with
     | NodeType.Widget => true
     | NodeType.Split => !f.isNull && !s.isNull
     | NodeType.Tab =>
       decide (2 ≤ cs.length) && cs.all (fun c => !c.isTab) &&
       decide (0 ≤ d.activeTab) && decide (d.activeTab ≤ (cs.length : ℤ) - 1))

/-- ClaimNormalizedB over a children vector. -/
def ClaimNormalizedListB : List LNode → Bool
  | [] => true
  | c :: cs => ClaimNormalizedB c && ClaimNormalizedListB cs

end

/-- A list is NormalizedListB exactly when each member is NormalizedB. -/
theorem NormalizedListB_iff (l : List LNode) :
    NormalizedListB l = true ↔ ∀ c ∈ l, NormalizedB c = true := by
  induction l with
  | nil => simp [NormalizedListB]
  | cons c cs ih =>
    simp [NormalizedListB, ih, Bool.and_eq_true]

/-- A list is ClaimNormalizedListB exactly when each member is. -/
theorem ClaimNormalizedListB_iff (l : List LNode) :
    ClaimNormalizedListB l = true ↔ ∀ c ∈ l, ClaimNormalizedB c = true := by
  induction l with
  | nil => simp [ClaimNormalizedListB]
  | cons c cs ih =>
    simp [ClaimNormalizedListB, ih, Bool.and_eq_true]

/-- Strong induction on the size of a tree. -/
theorem LNode.strong_ind (P : LNode → Prop)
    (step : ∀ t : LNode, (∀ u : LNode, u.size < t.size → P u) → P t) :
    ∀ t, P t := by
  have key : ∀ n, ∀ t : LNode, t.size < n → P t := by
    intro n
    induction n using Nat.strong_induction_on with
    | _ n ih =>
      intro t ht
      exact step t (fun u hu => ih t.size ht u hu)
  exact fun t => key (t.size + 1) t (Nat.lt_succ_self _)

/-- The first child is smaller than the node. -/
theorem size_first_lt (d : NodeData) (f s : LNode) (cs : List LNode) :
    f.size < (LNode.node d f s cs).size := by
  simp only [LNode.size]
  omega

/-- The second child is smaller than the node. -/
theorem size_second_lt (d : NodeData) (f s : LNode) (cs : List LNode) :
    s.size < (LNode.node d f s cs).size := by
  simp only [LNode.size]
  omega

/-- A member of the children vector is smaller than the node. -/
theorem size_mem_lt (d : NodeData) (f s : LNode) {cs : List LNode} {c : LNode}
    (h : c ∈ cs) : c.size < (LNode.node d f s cs).size := by
  have := size_le_sizeList h
  simp only [LNode.size]
  omega

/-- The full invariant implies the specification's four properties. -/
theorem NormalizedB_implies_claim :
    ∀ t : LNode, NormalizedB t = true → ClaimNormalizedB t = true := by
  refine LNode.strong_ind _ ?_
  intro t ih
  cases t with
  | null => intro; rfl
  | node d f s cs =>
    intro h
    simp only [NormalizedB, Bool.and_eq_true] at h
    obtain ⟨⟨⟨⟨hf, hs⟩, hcs⟩, hnn⟩, hty⟩ := h
    simp only [ClaimNormalizedB, Bool.and_eq_true]
    refine ⟨⟨⟨ih f (size_first_lt d f s cs) hf,
            ih s (size_second_lt d f s cs) hs⟩, ?_⟩, ?_⟩
    · rw [ClaimNormalizedListB_iff]
      intro c hc
      exact ih c (size_mem_lt d f s hc) ((NormalizedListB_iff cs).mp hcs c hc)
    · cases htyeq : d.type with
      | Widget => rfl
      | Split =>
        rw [htyeq] at hty
        exact hty
      | Tab =>
        rw [htyeq] at hty
        exact hty

/-- Null filtering leaves only non-null entries. -/
theorem filter_nonnull_all (l : List LNode) :
    (l.filter (fun c => !c.isNull)).all (fun c => !c.isNull) = true := by
  rw [List.all_eq_true]
  intro c hc
  exact (List.mem_filter.mp hc).2

/-- Every output of the tab-flattening loop over normalized entries is a
normalized, non-null, non-Tab node. -/
theorem flatten_members {l : List LNode} (hl : ∀ c ∈ l, NormalizedB c = true) :
    ∀ c ∈ flattenTabChildren l,
      NormalizedB c = true ∧ c.isNull = false ∧ c.isTab = false := by
  induction l with
  | nil =>
    intro c hc
    simp [flattenTabChildren] at hc
  | cons x rest ih =>
    have hrest : ∀ c ∈ rest, NormalizedB c = true :=
      fun c hc => hl c (List.mem_cons_of_mem _ hc)
    cases x with
    | null =>
      intro c hc
      exact ih hrest c hc
    | node d f s gcs =>
      have hx : NormalizedB (LNode.node d f s gcs) = true :=
        hl _ (List.mem_cons_self _ _)
      simp only [NormalizedB, Bool.and_eq_true] at hx
      obtain ⟨⟨⟨⟨hf, hs⟩, hgcs⟩, hnn⟩, hty⟩ := hx
      intro c hc
      simp only [flattenTabChildren] at hc
      split at hc
      · rename_i hcond
        rcases List.mem_append.mp hc with hmem | hmem
        · have hcg := List.mem_filter.mp hmem
          have hcnorm := (NormalizedListB_iff gcs).mp hgcs c hcg.1
          rw [hcond.1] at hty
          simp only [Bool.and_eq_true] at hty
          have htab := (List.all_eq_true.mp hty.1.1.2) c hcg.1
          refine ⟨hcnorm, ?_, ?_⟩
          · cases hnull : c.isNull
            · rfl
            · rw [hnull] at hcg
              simp at hcg
          · simpa using htab
        · exact ih hrest c hmem
      · rename_i hcond
        rcases List.mem_cons.mp hc with hceq | hmem
        · subst hceq
          refine ⟨hl _ (List.mem_cons_self _ _), rfl, ?_⟩
          by_cases htab : d.type = NodeType.Tab
          · rw [htab] at hty
            simp only [Bool.and_eq_true, decide_eq_true_eq] at hty
            have hlen := hty.1.1.1
            exfalso
            apply hcond
            refine ⟨htab, ?_⟩
            cases gcs with
            | nil => simp at hlen
            | cons g gs => rfl
          · simp only [LNode.isTab]
            exact beq_eq_false_iff_ne.mpr htab
        · exact ih hrest c hmem

/-- Flattening is the identity on lists of non-null, non-Tab entries. -/
theorem flatten_id {l : List LNode}
    (h : ∀ c ∈ l, c.isNull = false ∧ c.isTab = false) :
    flattenTabChildren l = l := by
  induction l with
  | nil => rfl
  | cons x rest ih =>
    have hrest := fun c hc => h c (List.mem_cons_of_mem _ hc)
    have hx := h x (List.mem_cons_self _ _)
    cases x with
    | null => simp [LNode.isNull] at hx
    | node d f s gcs =>
      simp only [flattenTabChildren]
      have htab : ¬d.type = NodeType.Tab := by
        have := hx.2
        simp only [LNode.isTab] at this
        exact beq_eq_false_iff_ne.mp this
      rw [if_neg (by
        intro hcond
        exact htab hcond.1)]
      rw [ih hrest]

/-- Every tree produced by the fuelled DockLayout::normalizeNode satisfies
the full normalized invariant. -/
theorem layoutNormalizeFuel_normalized (n : ℕ) :
    (∀ t u, layoutNormalizeFuel n t = some u → NormalizedB u = true) ∧
    (∀ cs us, normalizeListFuel n cs = some us → NormalizedListB us = true) := by
  induction n using Nat.strong_induction_on with
  | _ n ih =>
    have nodePart : ∀ t u, layoutNormalizeFuel n t = some u → NormalizedB u = true := by
      intro t u hu
      match n, t with
      | 0, t => simp [layoutNormalizeFuel] at hu
      | m + 1, LNode.null =>
        simp only [layoutNormalizeFuel, Option.some.injEq] at hu
        subst hu
        rfl
      | m + 1, LNode.node d f s cs =>
        have hm : m < m + 1 := Nat.lt_succ_self m
        simp only [layoutNormalizeFuel, Option.bind_eq_bind] at hu
        rw [Option.bind_eq_some] at hu
        obtain ⟨f1, hf1, hu⟩ := hu
        rw [Option.bind_eq_some] at hu
        obtain ⟨s1, hs1, hu⟩ := hu
        rw [Option.bind_eq_some] at hu
        obtain ⟨cs0, hcs0, hu⟩ := hu
        have hf1n : NormalizedB f1 = true := (ih m hm).1 f f1 hf1
        have hs1n : NormalizedB s1 = true := (ih m hm).1 s s1 hs1
        have hcs0n : NormalizedListB cs0 = true := (ih m hm).2 cs cs0 hcs0
        have hcs1n : ∀ c ∈ cs0.filter (fun c => !c.isNull), NormalizedB c = true :=
          fun c hc => (NormalizedListB_iff cs0).mp hcs0n c (List.mem_filter.mp hc).1
        cases htype : d.type with
        | Widget =>
          rw [htype] at hu
          cases hw : d.widget with
          | none =>
            rw [hw] at hu
            simp only [Option.some.injEq] at hu
            subst hu
            rfl
          | some w =>
            rw [hw] at hu
            simp only [Option.some.injEq] at hu
            subst hu
            simp only [NormalizedB, htype, hw, Bool.and_eq_true]
            exact ⟨⟨⟨⟨hf1n, hs1n⟩, (NormalizedListB_iff _).mpr hcs1n⟩,
              filter_nonnull_all cs0⟩, rfl⟩
        | Tab =>
          rw [htype] at hu
          cases hfl : flattenTabChildren (cs0.filter (fun c => !c.isNull)) with
          | nil =>
            rw [hfl] at hu
            simp only [Option.some.injEq] at hu
            subst hu
            rfl
          | cons c1 crest =>
            rw [hfl] at hu
            have hflm := flatten_members hcs1n
            rw [hfl] at hflm
            cases crest with
            | nil => exact (ih m hm).1 c1 u hu
            | cons c2 rest =>
              simp only [Option.some.injEq] at hu
              subst hu
              simp only [NormalizedB, Bool.and_eq_true]
              refine ⟨⟨⟨⟨hf1n, hs1n⟩, ?_⟩, ?_⟩, ?_⟩
              · exact (NormalizedListB_iff _).mpr (fun c hc => (hflm c hc).1)
              · rw [List.all_eq_true]
                intro c hc
                rw [(hflm c hc).2.1]
                rfl
              · simp only [Bool.and_eq_true, decide_eq_true_eq]
                have hcl := clampZ_mem d.activeTab
                  (show (0:ℤ) ≤ ((c1 :: c2 :: rest).length : ℤ) - 1 by
                    simp only [List.length_cons]
                    omega)
                refine ⟨⟨⟨by simp, ?_⟩, hcl.1⟩, hcl.2⟩
                rw [List.all_eq_true]
                intro c hc
                rw [(hflm c hc).2.2]
                rfl
        | Split =>
          rw [htype] at hu
          cases f1 with
          | null =>
            cases s1 with
            | null =>
              simp only [Option.some.injEq] at hu
              subst hu
              rfl
            | node ds fs ss css => exact (ih m hm).1 _ u hu
          | node df ff sf csf =>
            cases s1 with
            | null => exact (ih m hm).1 _ u hu
            | node ds fs ss css =>
              simp only [Option.some.injEq] at hu
              subst hu
              simp only [NormalizedB, htype, Bool.and_eq_true] at hf1n hs1n ⊢
              exact ⟨⟨⟨⟨hf1n, hs1n⟩, (NormalizedListB_iff _).mpr hcs1n⟩,
                filter_nonnull_all cs0⟩, rfl, rfl⟩
    refine ⟨nodePart, ?_⟩
    intro cs us hus
    induction cs generalizing us with
    | nil =>
      simp only [normalizeListFuel, Option.some.injEq] at hus
      subst hus
      rfl
    | cons c rest ihl =>
      cases n with
      | zero => simp [normalizeListFuel, layoutNormalizeFuel] at hus
      | succ m =>
        simp only [normalizeListFuel, Option.bind_eq_bind] at hus
        rw [Option.bind_eq_some] at hus
        obtain ⟨c1, hc1, hus⟩ := hus
        rw [Option.bind_eq_some] at hus
        obtain ⟨rest1, hrest1, hus⟩ := hus
        simp only [Option.some.injEq] at hus
        subst hus
        simp only [NormalizedListB, Bool.and_eq_true]
        exact ⟨nodePart c c1 hc1, ihl rest1 hrest1⟩

/-- On a tree already satisfying the full normalized invariant, the
fuelled DockLayout::normalizeNode is the identity (given sufficient
fuel). -/
theorem layoutNormalizeFuel_fixpoint (n : ℕ) :
    (∀ t : LNode, NormalizedB t = true → t.size < n →
      layoutNormalizeFuel n t = some t) ∧
    (∀ cs : List LNode, NormalizedListB cs = true → LNode.size.sizeList cs < n →
      normalizeListFuel n cs = some cs) := by
  induction n using Nat.strong_induction_on with
  | _ n ih =>
    have nodePart : ∀ t : LNode, NormalizedB t = true → t.size < n →
        layoutNormalizeFuel n t = some t := by
      intro t hnorm hsize
      match n, t with
      | 0, t => omega
      | m + 1, LNode.null => simp [layoutNormalizeFuel]
      | m + 1, LNode.node d f s cs =>
        have hm : m < m + 1 := Nat.lt_succ_self m
        simp only [LNode.size] at hsize
        simp only [NormalizedB, Bool.and_eq_true] at hnorm
        obtain ⟨⟨⟨⟨hf, hs⟩, hcs⟩, hnn⟩, hty⟩ := hnorm
        have hf1 : layoutNormalizeFuel m f = some f := (ih m hm).1 f hf (by omega)
        have hs1 : layoutNormalizeFuel m s = some s := (ih m hm).1 s hs (by omega)
        have hcs0 : normalizeListFuel m cs = some cs := (ih m hm).2 cs hcs (by omega)
        have hfilter : cs.filter (fun c => !c.isNull) = cs :=
          List.filter_eq_self.mpr (fun c hc => List.all_eq_true.mp hnn c hc)
        simp only [layoutNormalizeFuel, hf1, hs1, hcs0, Option.bind_eq_bind,
          Option.some_bind, hfilter]
        cases htype : d.type with
        | Widget =>
          rw [htype] at hty
          cases hw : d.widget with
          | none =>
            rw [hw] at hty
            simp at hty
          | some w => rfl
        | Tab =>
          rw [htype] at hty
          simp only [Bool.and_eq_true, decide_eq_true_eq] at hty
          obtain ⟨⟨⟨hlen, htabs⟩, hlo⟩, hhi⟩ := hty
          have hflat : flattenTabChildren cs = cs := by
            apply flatten_id
            intro c hc
            refine ⟨?_, ?_⟩
            · have := List.all_eq_true.mp hnn c hc
              simpa using this
            · have := List.all_eq_true.mp htabs c hc
              simpa using this
          rw [hflat]
          cases cs with
          | nil => simp at hlen
          | cons c1 crest =>
            cases crest with
            | nil => simp at hlen
            | cons c2 rest =>
              have hclamp : clampZ d.activeTab 0 (((c1 :: c2 :: rest).length : ℤ) - 1) =
                  d.activeTab := clampZ_of_mem hlo hhi
              simp only [hclamp]
              rw [← htype]
        | Split =>
          rw [htype] at hty
          simp only [Bool.and_eq_true] at hty
          obtain ⟨hfn, hsn⟩ := hty
          cases f with
          | null => simp [LNode.isNull] at hfn
          | node df ff sf csf =>
            cases s with
            | null => simp [LNode.isNull] at hsn
            | node ds fs ss css => rfl
    refine ⟨nodePart, ?_⟩
    intro cs hcs hsize
    induction cs with
    | nil => simp [normalizeListFuel]
    | cons c rest ihl =>
      simp only [NormalizedListB, Bool.and_eq_true] at hcs
      simp only [LNode.size.sizeList] at hsize
      have hc1 : layoutNormalizeFuel n c = some c := nodePart c hcs.1 (by omega)
      have hrest1 : normalizeListFuel n rest = some rest := by
        exact ihl hcs.2 (by omega)
      cases n with
      | zero => omega
      | succ m =>
        simp only [normalizeListFuel, hc1, hrest1, Option.bind_eq_bind, Option.some_bind]

mutual

/-- Models DockLayout::updateNode (dock_layout.h lines 225-309): writes the
node's bounds, computes the two side extents of a Split via the
computeSizes lambda and recurses, stacks a Tab node's children vertically
in equal slices with the final child absorbing the rounding remainder, and
assigns a Widget node the full rectangle.  Only ever called on non-null
nodes; a null slot is returned unchanged. -/
def updateNode (t : LNode) (bounds : DFRect) : LNode :=
  match t with
  | .null => .null
  | .node d f s cs =>
    match d.type with
    | NodeType.Split =>
      if f.isNull || s.isNull then
        .node { d with bounds := bounds } f s cs
      else if d.vertical then
        let r := computeSizes { d with bounds := bounds } bounds.width
        let splitX := bounds.x + r.firstSize
        .node r.data
          (updateNode f ⟨bounds.x, bounds.y, r.firstSize, bounds.height⟩)
          (updateNode s ⟨splitX, bounds.y, r.secondSize, bounds.height⟩) cs
      else
        let r := computeSizes { d with bounds := bounds } bounds.height
        let splitY := bounds.y + r.firstSize
        .node r.data
          (updateNode f ⟨bounds.x, bounds.y, bounds.width, r.firstSize⟩)
          (updateNode s ⟨bounds.x, splitY, bounds.width, r.secondSize⟩) cs
    | NodeType.Tab =>
      if cs.isEmpty then
        .node { d with bounds := bounds } f s cs
      else
        let count : ℚ := (cs.length : ℚ)
        let sliceH := if 0 < count then bounds.height / count else bounds.height
        .node { d with bounds := bounds } f s
          (tabLayoutChildren bounds sliceH bounds.y cs)
    | NodeType.Widget =>
      .node { d with bounds := bounds } f s cs
termination_by (t.size, 0)
decreasing_by
  all_goals simp_wf
  all_goals simp only [LNode.size, LNode.size.sizeList]
  all_goals first
    | (apply Prod.Lex.left; omega)
    | (apply Prod.Lex.right' <;> omega)
    | omega

/-- The Tab-stacking loop of DockLayout::updateNode (dock_layout.h lines
293-302): each child receives the full width and an equal slice of the
height starting at the running offset `y`; the final child instead absorbs
everything up to the container's bottom edge. -/
def tabLayoutChildren (bounds : DFRect) (sliceH y : ℚ) (cs : List LNode) : List LNode :=
  match cs with
  | [] => []
  | [c] => [updateNode c ⟨bounds.x, y, bounds.width, max 0 ((bounds.y + bounds.height) - y)⟩]
  | c :: rest =>
    updateNode c ⟨bounds.x, y, bounds.width, max 0 sliceH⟩ ::
      tabLayoutChildren bounds sliceH (y + sliceH) rest
termination_by (LNode.size.sizeList cs, cs.length)
decreasing_by
  all_goals simp_wf
  all_goals simp only [LNode.size, LNode.size.sizeList]
  all_goals first
    | (apply Prod.Lex.left; omega)
    | (apply Prod.Lex.right' <;> omega)
    | omega

end

/-- Models DockLayout::update (dock_layout.h lines 41-54): bail out on a
null root, normalize (bail out if the tree collapsed to nothing), then
recompute minimum sizes bottom-up and geometry top-down.  The markTabified
pass between normalization and the minimum-size pass only calls
DockWidget::setTabified on external panel objects and does not read or
write any tree field, so it has no effect in this model. -/
def layoutUpdate (env : ℕ → DFSize) (containerBounds : DFRect) (root : LNode) : LNode :=
  if root.isNull then root
  else
    let t1 := normalizeNode root
    if t1.isNull then t1
    else updateNode (recalcMinSizes env t1) containerBounds

/-- The two sides computed by computeSizes always sum to the clamped
total. -/
theorem computeSizes_sum (d : NodeData) (total : ℚ) :
    (computeSizes d total).firstSize + (computeSizes d total).secondSize =
      max 0 total := by
  simp only [computeSizes]
  ring

/-- clampQ with equal endpoints is constant. -/
theorem clampQ_self (v a : ℚ) : clampQ v a a = a := by
  unfold clampQ
  split_ifs <;> linarith

mutual

/-- The split-sum invariant: every Split node with both children present
has children whose extents along the split axis sum exactly to its own
extent. -/
def SplitSumB : LNode → Bool
  | .null => true
  | .node d f s cs =>
    SplitSumB f && SplitSumB s && SplitSumListB cs &&
    (if d.type = NodeType.Split ∧ f.isNull = false ∧ s.isNull = false then
      (if d.vertical then
        decide (f.getData.bounds.width + s.getData.bounds.width = d.bounds.width)
      else
        decide (f.getData.bounds.height + s.getData.bounds.height = d.bounds.height))
    else true)

/-- SplitSumB over a children vector. -/
def SplitSumListB : List LNode → Bool
  | [] => true
  | c :: cs => SplitSumB c && SplitSumListB cs

end

/-- updateNode writes the given rectangle into a non-null node's bounds. -/
theorem updateNode_bounds (d : NodeData) (f s : LNode) (cs : List LNode)
    (b : DFRect) :
    (updateNode (LNode.node d f s cs) b).getData.bounds = b ∧
    (updateNode (LNode.node d f s cs) b).isNull = false := by
  cases htype : d.type with
  | Split =>
    by_cases hns : (f.isNull || s.isNull) = true
    · rw [updateNode]
      rw [htype]
      rw [if_pos hns]
      exact ⟨rfl, rfl⟩
    · rw [updateNode]
      rw [htype]
      rw [if_neg hns]
      cases hv : d.vertical
      · simp only [Bool.false_eq_true, if_false]
        constructor
        · simp [LNode.getData, computeSizes]
        · rfl
      · simp only [if_true]
        constructor
        · simp [LNode.getData, computeSizes]
        · rfl
  | Tab =>
    rw [updateNode]
    rw [htype]
    by_cases hemp : cs.isEmpty = true
    · rw [if_pos hemp]
      exact ⟨rfl, rfl⟩
    · rw [if_neg hemp]
      exact ⟨rfl, rfl⟩
  | Widget =>
    rw [updateNode]
    rw [htype]
    exact ⟨rfl, rfl⟩

/-- recalcMinSizes preserves nullity. -/
theorem recalc_isNull (env : ℕ → DFSize) (t : LNode) :
    (recalcMinSizes env t).isNull = t.isNull := by
  cases t with
  | null => rfl
  | node d f s cs =>
    cases htype : d.type <;>
      simp only [recalcMinSizes, htype] <;>
      first
        | rfl
        | (split <;> rfl)

/-- recalcMinSizes preserves the node kind test. -/
theorem recalc_isTab (env : ℕ → DFSize) (t : LNode) :
    (recalcMinSizes env t).isTab = t.isTab := by
  cases t with
  | null => rfl
  | node d f s cs =>
    cases htype : d.type with
    | Widget => simp [recalcMinSizes, htype, LNode.isTab]
    | Tab => simp [recalcMinSizes, htype, LNode.isTab]
    | Split =>
      simp only [recalcMinSizes, htype]
      split <;> simp [LNode.isTab, htype]

/-- recalcMinSizes preserves the full normalized invariant. -/
theorem recalc_normalized (env : ℕ → DFSize) :
    ∀ t : LNode, NormalizedB t = true → NormalizedB (recalcMinSizes env t) = true := by
  refine LNode.strong_ind _ ?_
  intro t ih
  cases t with
  | null => intro; rfl
  | node d f s cs =>
    intro h
    simp only [NormalizedB, Bool.and_eq_true] at h
    obtain ⟨⟨⟨⟨hf, hs⟩, hcs⟩, hnn⟩, hty⟩ := h
    cases htype : d.type with
    | Widget =>
      rw [htype] at hty
      simp only [recalcMinSizes, htype]
      simp only [NormalizedB, htype, Bool.and_eq_true]
      exact ⟨⟨⟨⟨hf, hs⟩, hcs⟩, hnn⟩, hty⟩
    | Tab =>
      rw [htype] at hty
      simp only [recalcMinSizes, htype]
      simp only [NormalizedB, htype, Bool.and_eq_true]
      rw [recalcList_eq_map]
      have hmemlt : ∀ c ∈ cs, c.size < (LNode.node d f s cs).size :=
        fun c hc => size_mem_lt d f s hc
      refine ⟨⟨⟨⟨hf, hs⟩, ?_⟩, ?_⟩, ?_⟩
      · rw [NormalizedListB_iff]
        intro c hc
        obtain ⟨c0, hc0, rfl⟩ := List.mem_map.mp hc
        exact ih c0 (hmemlt c0 hc0) ((NormalizedListB_iff cs).mp hcs c0 hc0)
      · rw [List.all_eq_true]
        intro c hc
        obtain ⟨c0, hc0, rfl⟩ := List.mem_map.mp hc
        rw [recalc_isNull]
        exact List.all_eq_true.mp hnn c0 hc0
      · simp only [Bool.and_eq_true, decide_eq_true_eq] at hty ⊢
        refine ⟨⟨⟨by simpa using hty.1.1.1, ?_⟩, hty.1.2⟩, by simpa using hty.2⟩
        rw [List.all_eq_true]
        intro c hc
        obtain ⟨c0, hc0, rfl⟩ := List.mem_map.mp hc
        rw [recalc_isTab]
        exact List.all_eq_true.mp hty.1.1.2 c0 hc0
    | Split =>
      rw [htype] at hty
      simp only [recalcMinSizes, htype]
      have hrec : ∀ (d1 : NodeData),
          d1.type = NodeType.Split → d1.widget = d.widget → d1.activeTab = d.activeTab →
          NormalizedB (LNode.node d1 (recalcMinSizes env f) (recalcMinSizes env s) cs) = true := by
        intro d1 ht1 _ _
        simp only [NormalizedB, ht1, Bool.and_eq_true]
        refine ⟨⟨⟨⟨ih f (size_first_lt d f s cs) hf,
          ih s (size_second_lt d f s cs) hs⟩, hcs⟩, hnn⟩, ?_⟩
        simp only [Bool.and_eq_true] at hty
        simp only [recalc_isNull, Bool.and_eq_true]
        exact hty
      cases hv : d.vertical
      · simp only [Bool.false_eq_true, if_false]
        exact hrec _ rfl rfl rfl
      · simp only [if_true]
        exact hrec _ rfl rfl rfl

mutual

/-- Shape invariant of trees built by the framework's documented
operations: a Widget leaf has no children at all, a Split uses only its
first/second slots, and a Tab uses only its children vector. -/
def WellFormedB : LNode → Bool
  | .null => true
  | .node d f s cs =>
    WellFormedB f && WellFormedB s && WellFormedListB cs &&
    (match d.type with
     | NodeType.Widget => f.isNull && s.isNull && cs.isEmpty
     | NodeType.Split => cs.isEmpty
     | NodeType.Tab => f.isNull && s.isNull)

/-- WellFormedB over a children vector. -/
def WellFormedListB : List LNode → Bool
  | [] => true
  | c :: cs => WellFormedB c && WellFormedListB cs

end

/-- WellFormedListB holds exactly when each member is WellFormedB. -/
theorem WellFormedListB_iff (l : List LNode) :
    WellFormedListB l = true ↔ ∀ c ∈ l, WellFormedB c = true := by
  induction l with
  | nil => simp [WellFormedListB]
  | cons c cs ih => simp [WellFormedListB, ih, Bool.and_eq_true]

/-- Normalizing a null slot yields a null slot. -/
theorem normalizeFuel_null {n : ℕ} {u : LNode}
    (h : layoutNormalizeFuel n LNode.null = some u) : u = LNode.null := by
  cases n with
  | zero => simp [layoutNormalizeFuel] at h
  | succ m =>
    simp only [layoutNormalizeFuel, Option.some.injEq] at h
    exact h.symm

/-- The normalized children vector has the same length as the original. -/
theorem normalizeListFuel_length {n : ℕ} :
    ∀ {cs us : List LNode}, normalizeListFuel n cs = some us → us.length = cs.length := by
  intro cs
  induction cs with
  | nil =>
    intro us hus
    simp only [normalizeListFuel, Option.some.injEq] at hus
    subst hus
    rfl
  | cons c rest ih =>
    intro us hus
    cases n with
    | zero => simp [normalizeListFuel, layoutNormalizeFuel] at hus
    | succ m =>
      simp only [normalizeListFuel, Option.bind_eq_bind] at hus
      rw [Option.bind_eq_some] at hus
      obtain ⟨c1, _, hus⟩ := hus
      rw [Option.bind_eq_some] at hus
      obtain ⟨rest1, hrest1, hus⟩ := hus
      simp only [Option.some.injEq] at hus
      subst hus
      simp only [List.length_cons, ih hrest1]

/-- Tab flattening of a list of well-formed entries yields well-formed
entries. -/
theorem flatten_members_wf {l : List LNode}
    (hl : ∀ c ∈ l, WellFormedB c = true) :
    ∀ c ∈ flattenTabChildren l, WellFormedB c = true := by
  induction l with
  | nil =>
    intro c hc
    simp [flattenTabChildren] at hc
  | cons x rest ih =>
    have hrest : ∀ c ∈ rest, WellFormedB c = true :=
      fun c hc => hl c (List.mem_cons_of_mem _ hc)
    cases x with
    | null =>
      intro c hc
      exact ih hrest c hc
    | node d f s gcs =>
      have hx : WellFormedB (LNode.node d f s gcs) = true := hl _ (List.mem_cons_self _ _)
      simp only [WellFormedB, Bool.and_eq_true] at hx
      intro c hc
      simp only [flattenTabChildren] at hc
      split at hc
      · rcases List.mem_append.mp hc with hmem | hmem
        · exact (WellFormedListB_iff gcs).mp hx.1.2 c (List.mem_filter.mp hmem).1
        · exact ih hrest c hmem
      · rcases List.mem_cons.mp hc with hceq | hmem
        · subst hceq
          exact hl _ (List.mem_cons_self _ _)
        · exact ih hrest c hmem

/-- A Tab node over well-formed children with empty first/second slots is
well-formed. -/
theorem wellformed_tab_node (d : NodeData) (cs : List LNode)
    (htype : d.type = NodeType.Tab) (h : ∀ c ∈ cs, WellFormedB c = true) :
    WellFormedB (LNode.node d LNode.null LNode.null cs) = true := by
  have hl := (WellFormedListB_iff cs).mpr h
  simp [WellFormedB, htype, LNode.isNull, hl]

/-- The fuelled normalization pass preserves well-formedness. -/
theorem layoutNormalizeFuel_wellformed (n : ℕ) :
    (∀ t u, WellFormedB t = true → layoutNormalizeFuel n t = some u →
      WellFormedB u = true) ∧
    (∀ cs us, WellFormedListB cs = true → normalizeListFuel n cs = some us →
      WellFormedListB us = true) := by
  induction n using Nat.strong_induction_on with
  | _ n ih =>
    have nodePart : ∀ t u, WellFormedB t = true → layoutNormalizeFuel n t = some u →
        WellFormedB u = true := by
      intro t u hwf hu
      match n, t with
      | 0, t => simp [layoutNormalizeFuel] at hu
      | m + 1, LNode.null =>
        simp only [layoutNormalizeFuel, Option.some.injEq] at hu
        subst hu
        rfl
      | m + 1, LNode.node d f s cs =>
        have hm : m < m + 1 := Nat.lt_succ_self m
        simp only [WellFormedB, Bool.and_eq_true] at hwf
        obtain ⟨⟨⟨hf, hs⟩, hcs⟩, hty⟩ := hwf
        simp only [layoutNormalizeFuel, Option.bind_eq_bind] at hu
        rw [Option.bind_eq_some] at hu
        obtain ⟨f1, hf1, hu⟩ := hu
        rw [Option.bind_eq_some] at hu
        obtain ⟨s1, hs1, hu⟩ := hu
        rw [Option.bind_eq_some] at hu
        obtain ⟨cs0, hcs0, hu⟩ := hu
        have hf1w : WellFormedB f1 = true := (ih m hm).1 f f1 hf hf1
        have hs1w : WellFormedB s1 = true := (ih m hm).1 s s1 hs hs1
        have hcs0w : WellFormedListB cs0 = true := (ih m hm).2 cs cs0 hcs hcs0
        have hcs1w : ∀ c ∈ cs0.filter (fun c => !c.isNull), WellFormedB c = true :=
          fun c hc => (WellFormedListB_iff cs0).mp hcs0w c (List.mem_filter.mp hc).1
        have hlen0 : cs0.length = cs.length := normalizeListFuel_length hcs0
        cases htype : d.type with
        | Widget =>
          rw [htype] at hu hty
          simp only [Bool.and_eq_true] at hty
          have hempty : cs0.filter (fun c => !c.isNull) = [] := by
            have hz : cs0.length = 0 := by
              rw [hlen0]
              simpa [List.isEmpty_iff_length_eq_zero] using hty.2
            rw [List.length_eq_zero] at hz
            subst hz
            rfl
          have hfn : f1 = LNode.null := by
            cases hfe : f with
            | null =>
              rw [hfe] at hf1
              exact normalizeFuel_null hf1
            | node _ _ _ _ =>
              rw [hfe] at hty
              simp [LNode.isNull] at hty
          have hsn : s1 = LNode.null := by
            cases hse : s with
            | null =>
              rw [hse] at hs1
              exact normalizeFuel_null hs1
            | node _ _ _ _ =>
              rw [hse] at hty
              simp [LNode.isNull] at hty
          cases hw : d.widget with
          | none =>
            rw [hw] at hu
            simp only [Option.some.injEq] at hu
            subst hu
            rfl
          | some w =>
            rw [hw] at hu
            simp only [Option.some.injEq] at hu
            subst hu
            subst hfn
            subst hsn
            rw [hempty]
            simp [WellFormedB, htype, WellFormedListB, LNode.isNull]
        | Tab =>
          rw [htype] at hu hty
          simp only [Bool.and_eq_true] at hty
          have hfn : f1 = LNode.null := by
            cases hfe : f with
            | null =>
              rw [hfe] at hf1
              exact normalizeFuel_null hf1
            | node _ _ _ _ =>
              rw [hfe] at hty
              simp [LNode.isNull] at hty
          have hsn : s1 = LNode.null := by
            cases hse : s with
            | null =>
              rw [hse] at hs1
              exact normalizeFuel_null hs1
            | node _ _ _ _ =>
              rw [hse] at hty
              simp [LNode.isNull] at hty
          have hflw : ∀ c ∈ flattenTabChildren (cs0.filter (fun c => !c.isNull)),
              WellFormedB c = true := flatten_members_wf hcs1w
          cases hfl : flattenTabChildren (cs0.filter (fun c => !c.isNull)) with
          | nil =>
            rw [hfl] at hu
            simp only [Option.some.injEq] at hu
            subst hu
            rfl
          | cons c1 crest =>
            rw [hfl] at hu hflw
            cases crest with
            | nil => exact (ih m hm).1 c1 u (hflw c1 (List.mem_cons_self _ _)) hu
            | cons c2 rest =>
              simp only [Option.some.injEq] at hu
              subst hu
              subst hfn
              subst hsn
              exact wellformed_tab_node _ _ rfl hflw
        | Split =>
          rw [htype] at hu hty
          cases f1 with
          | null =>
            cases s1 with
            | null =>
              simp only [Option.some.injEq] at hu
              subst hu
              rfl
            | node ds fs ss css => exact (ih m hm).1 _ u hs1w hu
          | node df ff sf csf =>
            cases s1 with
            | null => exact (ih m hm).1 _ u hf1w hu
            | node ds fs ss css =>
              simp only [Option.some.injEq] at hu
              subst hu
              have hempty : cs0.filter (fun c => !c.isNull) = [] := by
                have hz : cs0.length = 0 := by
                  rw [hlen0]
                  simpa [List.isEmpty_iff_length_eq_zero] using hty
                rw [List.length_eq_zero] at hz
                subst hz
                rfl
              rw [hempty]
              simp only [WellFormedB, htype, Bool.and_eq_true, WellFormedListB] at hf1w hs1w ⊢
              exact ⟨⟨⟨hf1w, hs1w⟩, trivial⟩, rfl⟩
    refine ⟨nodePart, ?_⟩
    intro cs us hwf hus
    induction cs generalizing us with
    | nil =>
      simp only [normalizeListFuel, Option.some.injEq] at hus
      subst hus
      rfl
    | cons c rest ihl =>
      cases n with
      | zero => simp [normalizeListFuel, layoutNormalizeFuel] at hus
      | succ m =>
        simp only [WellFormedListB, Bool.and_eq_true] at hwf
        simp only [normalizeListFuel, Option.bind_eq_bind] at hus
        rw [Option.bind_eq_some] at hus
        obtain ⟨c1, hc1, hus⟩ := hus
        rw [Option.bind_eq_some] at hus
        obtain ⟨rest1, hrest1, hus⟩ := hus
        simp only [Option.some.injEq] at hus
        subst hus
        simp only [WellFormedListB, Bool.and_eq_true]
        exact ⟨nodePart c c1 hwf.1 hc1, ihl rest1 hwf.2 hrest1⟩

/-- recalcMinSizes preserves well-formedness. -/
theorem recalc_wellformed (env : ℕ → DFSize) :
    ∀ t : LNode, WellFormedB t = true → WellFormedB (recalcMinSizes env t) = true := by
  refine LNode.strong_ind _ ?_
  intro t ih
  cases t with
  | null => intro; rfl
  | node d f s cs =>
    intro h
    simp only [WellFormedB, Bool.and_eq_true] at h
    obtain ⟨⟨⟨hf, hs⟩, hcs⟩, hty⟩ := h
    cases htype : d.type with
    | Widget =>
      simp only [htype, Bool.and_eq_true] at hty
      simp only [recalcMinSizes, htype]
      simp only [WellFormedB, htype, Bool.and_eq_true]
      exact ⟨⟨⟨hf, hs⟩, hcs⟩, hty⟩
    | Tab =>
      simp only [htype, Bool.and_eq_true] at hty
      simp only [recalcMinSizes, htype]
      simp only [WellFormedB, htype, Bool.and_eq_true]
      rw [recalcList_eq_map]
      refine ⟨⟨⟨hf, hs⟩, ?_⟩, ?_⟩
      · rw [WellFormedListB_iff]
        intro c hc
        obtain ⟨c0, hc0, rfl⟩ := List.mem_map.mp hc
        exact ih c0 (size_mem_lt d f s hc0) ((WellFormedListB_iff cs).mp hcs c0 hc0)
      · simpa [recalc_isNull] using hty
    | Split =>
      simp only [htype, Bool.and_eq_true] at hty
      simp only [recalcMinSizes, htype]
      cases hv : d.vertical
      · simp only [Bool.false_eq_true, if_false]
        simp only [WellFormedB, htype, Bool.and_eq_true]
        exact ⟨⟨⟨ih f (size_first_lt d f s cs) hf,
          ih s (size_second_lt d f s cs) hs⟩, hcs⟩, hty⟩
      · simp only [if_true]
        simp only [WellFormedB, htype, Bool.and_eq_true]
        exact ⟨⟨⟨ih f (size_first_lt d f s cs) hf,
          ih s (size_second_lt d f s cs) hs⟩, hcs⟩, hty⟩

/-- The second side computed by computeSizes is nonnegative, and so is the
first. -/
theorem computeSizes_both_nonneg (d : NodeData) (total : ℚ) :
    0 ≤ (computeSizes d total).firstSize ∧ 0 ≤ (computeSizes d total).secondSize := by
  have hmem := computeSizes_firstSize_mem d total
  have hsum := computeSizes_sum d total
  exact ⟨hmem.1, by linarith⟩

/-- The Tab-stacking loop produces children satisfying the split-sum
invariant whenever updating each child with a nonnegative rectangle does. -/
theorem tabLayoutChildren_splitsum (b : DFRect) (sh : ℚ) (hw : 0 ≤ b.width) :
    ∀ (cs : List LNode) (y : ℚ),
      (∀ c ∈ cs, ∀ r : DFRect, 0 ≤ r.width → 0 ≤ r.height →
        SplitSumB (updateNode c r) = true) →
      SplitSumListB (tabLayoutChildren b sh y cs) = true := by
  intro cs
  induction cs with
  | nil =>
    intro y hok
    simp [tabLayoutChildren, SplitSumListB]
  | cons c rest ih =>
    intro y hok
    have hokc := hok c (List.mem_cons_self _ _)
    cases rest with
    | nil =>
      rw [tabLayoutChildren]
      simp only [SplitSumListB, Bool.and_eq_true]
      refine ⟨hokc _ hw (le_max_left 0 _), by trivial⟩
    | cons c2 rest2 =>
      rw [tabLayoutChildren]
      · simp only [SplitSumListB, Bool.and_eq_true]
        refine ⟨hokc _ hw (le_max_left 0 _), ?_⟩
        exact ih (y + sh) (fun x hx => hok x (List.mem_cons_of_mem _ hx))
      · simp

/-- computeSizes does not change the node's bounds, type, or split
orientation. -/
theorem computeSizes_data_fields (d : NodeData) (total : ℚ) :
    (computeSizes d total).data.bounds = d.bounds ∧
    (computeSizes d total).data.type = d.type ∧
    (computeSizes d total).data.vertical = d.vertical := by
  refine ⟨rfl, rfl, rfl⟩

/-- computeSizes keeps the node's split orientation. -/
theorem computeSizes_vertical (d : NodeData) (total : ℚ) :
    (computeSizes d total).data.vertical = d.vertical := rfl

/-- Projection form of updateNode_bounds for rewriting. -/
theorem updateNode_bounds_eq (d : NodeData) (f s : LNode) (cs : List LNode)
    (b : DFRect) :
    (updateNode (LNode.node d f s cs) b).getData.bounds = b :=
  (updateNode_bounds d f s cs b).1

/-- The geometry pass establishes the split-sum invariant on every
normalized, well-formed tree placed in a rectangle of nonnegative
extents. -/
theorem updateNode_splitsum :
    ∀ t : LNode, NormalizedB t = true → WellFormedB t = true →
      ∀ b : DFRect, 0 ≤ b.width → 0 ≤ b.height →
        SplitSumB (updateNode t b) = true := by
  refine LNode.strong_ind _ ?_
  intro t ih
  cases t with
  | null =>
    intro _ _ b _ _
    simp [updateNode, SplitSumB]
  | node d f s cs =>
    intro hnorm hwf b hbw hbh
    simp only [NormalizedB, Bool.and_eq_true] at hnorm
    obtain ⟨⟨⟨⟨hnf, hns⟩, hncs⟩, hnn⟩, hnty⟩ := hnorm
    simp only [WellFormedB, Bool.and_eq_true] at hwf
    obtain ⟨⟨⟨hwff, hwfs⟩, hwfcs⟩, hwty⟩ := hwf
    cases htype : d.type with
    | Widget =>
      simp only [htype, Bool.and_eq_true] at hwty
      rw [updateNode]
      rw [htype]
      simp only [SplitSumB, Bool.and_eq_true]
      refine ⟨⟨⟨?_, ?_⟩, ?_⟩, ?_⟩
      · cases hfe : f with
        | null => trivial
        | node _ _ _ _ =>
          rw [hfe] at hwty
          simp [LNode.isNull] at hwty
      · cases hse : s with
        | null => trivial
        | node _ _ _ _ =>
          rw [hse] at hwty
          simp [LNode.isNull] at hwty
      · have : cs = [] := by
          have := hwty.2
          rwa [List.isEmpty_iff] at this
        subst this
        trivial
      · simp [htype]
    | Tab =>
      simp only [htype, Bool.and_eq_true] at hwty
      rw [updateNode]
      rw [htype]
      have hfnull : f = LNode.null := by
        cases hfe : f with
        | null => rfl
        | node _ _ _ _ =>
          rw [hfe] at hwty
          simp [LNode.isNull] at hwty
      have hsnull : s = LNode.null := by
        cases hse : s with
        | null => rfl
        | node _ _ _ _ =>
          rw [hse] at hwty
          simp [LNode.isNull] at hwty
      subst hfnull
      subst hsnull
      by_cases hemp : cs.isEmpty = true
      · rw [if_pos hemp]
        simp only [SplitSumB, Bool.and_eq_true]
        have : cs = [] := by rwa [List.isEmpty_iff] at hemp
        subst this
        exact ⟨⟨⟨by trivial, by trivial⟩, by trivial⟩, by simp [htype]⟩
      · rw [if_neg hemp]
        simp only [SplitSumB, Bool.and_eq_true]
        refine ⟨⟨⟨by trivial, by trivial⟩, ?_⟩, by simp [htype]⟩
        apply tabLayoutChildren_splitsum b _ hbw cs
        intro c hc r hrw hrh
        exact ih c (size_mem_lt d _ _ hc)
          ((NormalizedListB_iff cs).mp hncs c hc)
          ((WellFormedListB_iff cs).mp hwfcs c hc) r hrw hrh
    | Split =>
      simp only [htype, Bool.and_eq_true] at hwty hnty
      have hcse : cs = [] := by rwa [List.isEmpty_iff] at hwty
      subst hcse
      obtain ⟨hfnn, hsnn⟩ := hnty
      rw [updateNode]
      rw [htype]
      have hns' : (f.isNull || s.isNull) = false := by
        simp only [Bool.or_eq_false_iff]
        constructor
        · simpa using hfnn
        · simpa using hsnn
      rw [hns']
      simp only [Bool.false_eq_true, if_false]
      have hihf := ih f (size_first_lt d f s []) hnf hwff
      have hihs := ih s (size_second_lt d f s []) hns hwfs
      cases f with
      | null => simp [LNode.isNull] at hfnn
      | node df ff sf csf =>
        cases s with
        | null => simp [LNode.isNull] at hsnn
        | node ds fs ss css =>
          cases hv : d.vertical
          · simp only [Bool.false_eq_true, if_false]
            have hnn2 := computeSizes_both_nonneg { d with bounds := b } b.height
            have hsum := computeSizes_sum { d with bounds := b } b.height
            rw [max_eq_right hbh] at hsum
            have hb1 := updateNode_bounds df ff sf csf
              ⟨b.x, b.y, b.width, (computeSizes { d with bounds := b } b.height).firstSize⟩
            have hb2 := updateNode_bounds ds fs ss css
              ⟨b.x, b.y + (computeSizes { d with bounds := b } b.height).firstSize,
               b.width, (computeSizes { d with bounds := b } b.height).secondSize⟩
            simp only [SplitSumB, Bool.and_eq_true]
            refine ⟨⟨⟨?_, ?_⟩, by trivial⟩, ?_⟩
            · exact hihf _ hbw hnn2.1
            · exact hihs _ hbw hnn2.2
            · rw [if_pos ⟨rfl, hb1.2, hb2.2⟩]
              simp only [computeSizes_vertical, Bool.false_eq_true, if_false,
                decide_eq_true_eq, updateNode_bounds_eq]
              simpa using hsum
          · simp only [if_true]
            have hnn2 := computeSizes_both_nonneg { d with bounds := b } b.width
            have hsum := computeSizes_sum { d with bounds := b } b.width
            rw [max_eq_right hbw] at hsum
            have hb1 := updateNode_bounds df ff sf csf
              ⟨b.x, b.y, (computeSizes { d with bounds := b } b.width).firstSize, b.height⟩
            have hb2 := updateNode_bounds ds fs ss css
              ⟨b.x + (computeSizes { d with bounds := b } b.width).firstSize, b.y,
               (computeSizes { d with bounds := b } b.width).secondSize, b.height⟩
            simp only [SplitSumB, Bool.and_eq_true]
            refine ⟨⟨⟨?_, ?_⟩, by trivial⟩, ?_⟩
            · exact hihf _ hnn2.1 hbh
            · exact hihs _ hnn2.2 hbh
            · rw [if_pos ⟨rfl, hb1.2, hb2.2⟩]
              simp only [computeSizes_vertical, if_true, decide_eq_true_eq,
                updateNode_bounds_eq]
              simpa using hsum

/-- When the container is smaller than the combined stored minimums, the
computeSizes lambda scales both minimums by total/(minFirst + minSecond)
and gives each side exactly its scaled minimum, so neither side collapses
to zero while the other keeps its full minimum. -/
theorem computeSizes_compression (d : NodeData) (total : ℚ)
    (h0 : 0 < total) (h1 : 0 ≤ d.minFirstSize) (h2 : 0 ≤ d.minSecondSize)
    (hm1 : d.minFirstSize ≤ total) (hm2 : d.minSecondSize ≤ total)
    (hsum : total < d.minFirstSize + d.minSecondSize) :
    (computeSizes d total).firstSize =
      d.minFirstSize * (total / (d.minFirstSize + d.minSecondSize)) ∧
    (computeSizes d total).secondSize =
      d.minSecondSize * (total / (d.minFirstSize + d.minSecondSize)) := by
  have hms : 0 < d.minFirstSize + d.minSecondSize := by linarith
  have hmax : max 0 total = total := max_eq_right h0.le
  have hc1 : clampQ d.minFirstSize 0 total = d.minFirstSize := clampQ_of_mem h1 hm1
  have hc2 : clampQ d.minSecondSize 0 total = d.minSecondSize := clampQ_of_mem h2 hm2
  have hkey : total - d.minSecondSize * (total / (d.minFirstSize + d.minSecondSize)) =
      d.minFirstSize * (total / (d.minFirstSize + d.minSecondSize)) := by
    field_simp
    ring
  have hfstnn : 0 ≤ d.minFirstSize * (total / (d.minFirstSize + d.minSecondSize)) :=
    mul_nonneg h1 (div_nonneg h0.le hms.le)
  simp only [computeSizes, hmax, hc1, hc2]
  rw [if_pos (show 0 < total ∧ total < d.minFirstSize + d.minSecondSize from ⟨h0, hsum⟩)]
  rw [if_pos (show 0 < total ∧ total < d.minFirstSize + d.minSecondSize from ⟨h0, hsum⟩)]
  rw [hkey]
  rw [max_eq_right hfstnn]
  have hmaxFirst : ¬(d.minFirstSize * (total / (d.minFirstSize + d.minSecondSize)) <
      d.minFirstSize * (total / (d.minFirstSize + d.minSecondSize))) := lt_irrefl _
  rw [if_neg hmaxFirst]
  rw [clampQ_self]
  constructor
  · rfl
  · linarith [hkey]

/-- C3: after DockLayout::update on a well-formed tree with a container of
nonnegative extents, every Split node with both children has children
whose extents along the split axis sum exactly to its own extent; and when
the clamped minimums exceed the available total, computeSizes gives each
side exactly its minimum scaled by total/(minFirst+minSecond), so neither
side is clipped to zero while the other keeps its full minimum. -/
theorem C3_theorem (env : ℕ → DFSize) :
    (∀ (t : LNode) (c : DFRect), WellFormedB t = true →
      0 ≤ c.width → 0 ≤ c.height →
      SplitSumB (layoutUpdate env c t) = true) ∧
    (∀ (d : NodeData) (total : ℚ),
      0 < total → 0 ≤ d.minFirstSize → 0 ≤ d.minSecondSize →
      d.minFirstSize ≤ total → d.minSecondSize ≤ total →
      total < d.minFirstSize + d.minSecondSize →
      (computeSizes d total).firstSize + (computeSizes d total).secondSize = total ∧
      (computeSizes d total).firstSize =
        d.minFirstSize * (total / (d.minFirstSize + d.minSecondSize)) ∧
      (computeSizes d total).secondSize =
        d.minSecondSize * (total / (d.minFirstSize + d.minSecondSize))) := by
  constructor
  · intro t c hwf hcw hch
    rw [layoutUpdate]
    by_cases hnull : t.isNull = true
    · rw [if_pos hnull]
      cases t with
      | null => rfl
      | node d f s cs => simp [LNode.isNull] at hnull
    · rw [if_neg hnull]
      have hspec := normalizeNode_spec t
      by_cases h1null : (normalizeNode t).isNull = true
      · simp only [h1null, if_true]
        cases hne : normalizeNode t with
        | null => rfl
        | node d f s cs =>
          rw [hne] at h1null
          simp [LNode.isNull] at h1null
      · simp only [h1null, Bool.false_eq_true, if_false]
        have hnorm : NormalizedB (normalizeNode t) = true :=
          (layoutNormalizeFuel_normalized (t.size + 1)).1 t _ hspec.1
        have hwf1 : WellFormedB (normalizeNode t) = true :=
          (layoutNormalizeFuel_wellformed (t.size + 1)).1 t _ hwf hspec.1
        exact updateNode_splitsum (recalcMinSizes env (normalizeNode t))
          (recalc_normalized env _ hnorm) (recalc_wellformed env _ hwf1) c hcw hch
  · intro d total h0 h1 h2 hm1 hm2 hsum
    have hcomp := computeSizes_compression d total h0 h1 h2 hm1 hm2 hsum
    have hs := computeSizes_sum d total
    rw [max_eq_right h0.le] at hs
    exact ⟨hs, hcomp.1, hcomp.2⟩

/-- C3 (witness): the theorem applied at a concrete tree, container and
compressed split. -/
theorem C3_witness :
    (WellFormedB (LNode.node { type := NodeType.Split }
        (LNode.node { type := NodeType.Widget, widget := some 1 } LNode.null LNode.null [])
        (LNode.node { type := NodeType.Widget, widget := some 2 } LNode.null LNode.null [])
        []) = true ∧
      (0:ℚ) ≤ 100 ∧ (0:ℚ) ≤ 50 ∧
      SplitSumB (layoutUpdate (fun _ => ⟨0, 0⟩) ⟨0, 0, 100, 50⟩
        (LNode.node { type := NodeType.Split }
          (LNode.node { type := NodeType.Widget, widget := some 1 } LNode.null LNode.null [])
          (LNode.node { type := NodeType.Widget, widget := some 2 } LNode.null LNode.null [])
          [])) = true) ∧
    ((0:ℚ) < 100 ∧
      (computeSizes { type := NodeType.Split, minFirstSize := 60, minSecondSize := 60 }
          100).firstSize +
        (computeSizes { type := NodeType.Split, minFirstSize := 60, minSecondSize := 60 }
          100).secondSize = 100 ∧
      (computeSizes { type := NodeType.Split, minFirstSize := 60, minSecondSize := 60 }
          100).firstSize =
        ({ type := NodeType.Split, minFirstSize := 60, minSecondSize := 60 } : NodeData).minFirstSize *
          (100 / (({ type := NodeType.Split, minFirstSize := 60, minSecondSize := 60 } : NodeData).minFirstSize +
            ({ type := NodeType.Split, minFirstSize := 60, minSecondSize := 60 } : NodeData).minSecondSize))) := by
  have h2 := (C3_theorem (fun _ => ⟨0, 0⟩)).2
    { type := NodeType.Split, minFirstSize := 60, minSecondSize := 60 } 100
    (by norm_num) (by norm_num) (by norm_num) (by norm_num) (by norm_num) (by norm_num)
  refine ⟨⟨rfl, by norm_num, by norm_num, ?_⟩, by norm_num, h2.1, h2.2.1⟩
  exact (C3_theorem (fun _ => ⟨0, 0⟩)).1 _ ⟨0, 0, 100, 50⟩ rfl (by norm_num) (by norm_num)

/-- The normalization properties at the root node only: a root Split has
both children, a root Tab has at least two non-null children and an
in-range activeTab.  (No statement about deeper nodes and no tab-of-tab
condition.) -/
def rootNormalizedB : LNode → Bool
  | .null => true
  | .node d f s cs =>
    match d.type with
    | NodeType.Widget => true
    | NodeType.Split => !f.isNull && !s.isNull
    | NodeType.Tab =>
      decide (2 ≤ cs.length) && cs.all (fun c => !c.isNull) &&
      decide (0 ≤ d.activeTab) && decide (d.activeTab ≤ (cs.length : ℤ) - 1)

/-- The orchestrator's NormalizeNode always leaves a root-normalized
node. -/
theorem frameworkNormalizeNode_root :
    ∀ t : LNode, rootNormalizedB (frameworkNormalizeNode t) = true := by
  refine LNode.strong_ind _ ?_
  intro t ih
  cases t with
  | null => simp [frameworkNormalizeNode, rootNormalizedB]
  | node d f s cs =>
    by_cases hsplit : d.type = NodeType.Split
    · cases f with
      | null =>
        cases s with
        | null => simp [frameworkNormalizeNode, hsplit, rootNormalizedB]
        | node ds fs ss css =>
          have hred : frameworkNormalizeNode (LNode.node d LNode.null (LNode.node ds fs ss css) cs) =
              frameworkNormalizeNode (LNode.node ds fs ss css) := by
            rw [frameworkNormalizeNode]
            rw [if_pos hsplit]
          rw [hred]
          exact ih _ (size_second_lt d _ _ cs)
      | node df ff sf csf =>
        cases s with
        | null =>
          have hred : frameworkNormalizeNode (LNode.node d (LNode.node df ff sf csf) LNode.null cs) =
              frameworkNormalizeNode (LNode.node df ff sf csf) := by
            rw [frameworkNormalizeNode]
            rw [if_pos hsplit]
          rw [hred]
          exact ih _ (size_first_lt d _ _ cs)
        | node ds fs ss css =>
          have hred : frameworkNormalizeNode
              (LNode.node d (LNode.node df ff sf csf) (LNode.node ds fs ss css) cs) =
              LNode.node d (LNode.node df ff sf csf) (LNode.node ds fs ss css) cs := by
            rw [frameworkNormalizeNode]
            rw [if_pos hsplit]
          rw [hred]
          simp [rootNormalizedB, hsplit, LNode.isNull]
    · by_cases htab : d.type = NodeType.Tab
      · rw [frameworkNormalizeNode.eq_def]
        dsimp only
        rw [if_neg hsplit, if_pos htab]
        split
        · rfl
        · rename_i c hfl
          have hc1 : c ∈ cs := by
            have : c ∈ cs.filter (fun c => !c.isNull) := by
              rw [hfl]
              exact List.mem_singleton_self c
            exact List.mem_of_mem_filter this
          exact ih _ (size_mem_lt d f s hc1)
        · rename_i c1 c2 rest hfl
          have hall : ∀ c ∈ c1 :: c2 :: rest, c.isNull = false := by
            intro c hc
            have : c ∈ cs.filter (fun x => !x.isNull) := by
              rw [hfl]
              exact hc
            simpa using (List.mem_filter.mp this).2
          have hcl := clampZ_mem d.activeTab
            (show (0:ℤ) ≤ ((c1 :: c2 :: rest).length : ℤ) - 1 by
              simp only [List.length_cons]
              omega)
          simp only [rootNormalizedB, htab, Bool.and_eq_true, decide_eq_true_eq]
          refine ⟨⟨⟨by simp, ?_⟩, hcl.1⟩, hcl.2⟩
          rw [List.all_eq_true]
          intro c hc
          rw [hall c hc]
          rfl
      · rw [frameworkNormalizeNode.eq_def]
        dsimp only
        rw [if_neg hsplit, if_neg htab]
        cases htype : d.type with
        | Widget => simp [rootNormalizedB, htype]
        | Split => exact absurd htype hsplit
        | Tab => exact absurd htype htab

/-- C6 (amended): after the normalize pass of DockLayout::update the whole
tree satisfies the four normalization properties (no Split with a missing
child, no Tab with fewer than two children, no tab-of-tab, activeTab in
range); the orchestrator's NormalizeNode instead only normalizes the top
of the tree: its result is root-normalized (Split arity, Tab arity and
activeTab range at the root), but tab-of-tab is not flattened and deeper
nodes are not re-normalized. -/
theorem C6_theorem :
    (∀ t : LNode, ClaimNormalizedB (normalizeNode t) = true) ∧
    (∀ t : LNode, rootNormalizedB (frameworkNormalizeNode t) = true) := by
  constructor
  · intro t
    have hspec := (normalizeNode_spec t).1
    exact NormalizedB_implies_claim _
      ((layoutNormalizeFuel_normalized (t.size + 1)).1 t _ hspec)
  · exact frameworkNormalizeNode_root

/-- A widget leaf used by the C6 counterexample. -/
def c6Leaf (i : ℕ) : LNode :=
  LNode.node { type := NodeType.Widget, widget := some i } LNode.null LNode.null []

/-- A two-widget Tab node used by the C6 counterexample. -/
def c6InnerTab : LNode :=
  LNode.node { type := NodeType.Tab, activeTab := 0 } LNode.null LNode.null
    [c6Leaf 1, c6Leaf 2]

/-- A root Tab whose first child is itself a Tab (tab-of-tab). -/
def c6Tree : LNode :=
  LNode.node { type := NodeType.Tab, activeTab := 0 } LNode.null LNode.null
    [c6InnerTab, c6Leaf 3]

/-- C6 (counterexample): the orchestrator's NormalizeNode, applied to a
root Tab with two non-null children one of which is itself a Tab of two
widgets, returns the tree unchanged, and that tree violates the claimed
postcondition (it contains a Tab node with a Tab node as direct child), so
NormalizeNode does not establish the four claimed properties after every
tree rewrite. -/
theorem C6_counterexample :
    frameworkNormalizeNode c6Tree = c6Tree ∧ ClaimNormalizedB c6Tree = false := by
  have hfl : List.filter (fun c => !c.isNull) [c6InnerTab, c6Leaf 3] =
      [c6InnerTab, c6Leaf 3] := by
    simp [c6InnerTab, c6Leaf, LNode.isNull]
  constructor
  · show frameworkNormalizeNode
      (LNode.node { type := NodeType.Tab, activeTab := 0 } LNode.null LNode.null
        [c6InnerTab, c6Leaf 3]) = c6Tree
    rw [frameworkNormalizeNode.eq_def]
    dsimp only
    rw [if_neg (show ¬(NodeType.Tab = NodeType.Split) by decide), if_pos rfl]
    split
    · rename_i heq
      rw [hfl] at heq
      simp at heq
    · rename_i c heq
      rw [hfl] at heq
      simp at heq
    · rename_i c1 c2 rest heq
      rw [hfl] at heq
      simp only [List.cons.injEq] at heq
      obtain ⟨h1, h2, h3⟩ := heq
      subst h1
      subst h2
      subst h3
      norm_num [clampZ, c6Tree]
  · simp [c6Tree, c6InnerTab, c6Leaf, ClaimNormalizedB, ClaimNormalizedListB, LNode.isTab]


/-- Clamping an already clamped value changes nothing. -/
theorem clampQ_idem {lo hi : ℚ} (v : ℚ) (h : lo ≤ hi) :
    clampQ (clampQ v lo hi) lo hi = clampQ v lo hi :=
  clampQ_of_mem (clampQ_mem v h).1 (clampQ_mem v h).2

/-- Feeding the node data written back by computeSizes through computeSizes
again (same container extent) reproduces exactly the same result: the
write-back of the effective ratio/fixedSize makes the lambda idempotent. -/
theorem computeSizes_idem (d : NodeData) (total : ℚ) :
    computeSizes (computeSizes d total).data total = computeSizes d total := by
  have hmem := computeSizes_firstSize_mem d total
  cases hmode : d.splitSizing with
  | FixedFirst =>
    simp only [computeSizes, hmode] at hmem ⊢
    set ct := max 0 total with hct
    set m1 := clampQ d.minFirstSize 0 ct with hm1
    set m2 := clampQ d.minSecondSize 0 ct with hm2
    set mf := (if 0 < ct ∧ ct < m1 + m2 then m1 * (ct / (m1 + m2)) else m1) with hmfd
    set ms := (if 0 < ct ∧ ct < m1 + m2 then m2 * (ct / (m1 + m2)) else m2) with hmsd
    set maxF := (if max 0 (ct - ms) < mf then mf else max 0 (ct - ms)) with hmaxFd
    have hmfle : mf ≤ maxF := by
      rw [hmaxFd]
      split_ifs with h
      · exact le_refl mf
      · exact not_lt.mp h
    rw [clampQ_idem d.fixedSize hmfle]
    by_cases hpos : 0 < ct
    · simp only [if_pos hpos]
    · simp only [if_neg hpos]
  | FixedSecond =>
    simp only [computeSizes, hmode] at hmem ⊢
    set ct := max 0 total with hct
    set m1 := clampQ d.minFirstSize 0 ct with hm1
    set m2 := clampQ d.minSecondSize 0 ct with hm2
    set mf := (if 0 < ct ∧ ct < m1 + m2 then m1 * (ct / (m1 + m2)) else m1) with hmfd
    set ms := (if 0 < ct ∧ ct < m1 + m2 then m2 * (ct / (m1 + m2)) else m2) with hmsd
    set maxF := (if max 0 (ct - ms) < mf then mf else max 0 (ct - ms)) with hmaxFd
    have hmfle : mf ≤ maxF := by
      rw [hmaxFd]
      split_ifs with h
      · exact le_refl mf
      · exact not_lt.mp h
    rw [show ct - (ct - clampQ (ct - d.fixedSize) mf maxF)
        = clampQ (ct - d.fixedSize) mf maxF from by ring]
    rw [clampQ_idem (ct - d.fixedSize) hmfle]
    by_cases hpos : 0 < ct
    · simp only [if_pos hpos]
    · simp only [if_neg hpos]
  | Ratio =>
    simp only [computeSizes, hmode] at hmem ⊢
    set ct := max 0 total with hct
    have hct0 : 0 ≤ ct := le_max_left 0 total
    set m1 := clampQ d.minFirstSize 0 ct with hm1
    set m2 := clampQ d.minSecondSize 0 ct with hm2
    set mf := (if 0 < ct ∧ ct < m1 + m2 then m1 * (ct / (m1 + m2)) else m1) with hmfd
    set ms := (if 0 < ct ∧ ct < m1 + m2 then m2 * (ct / (m1 + m2)) else m2) with hmsd
    set maxF := (if max 0 (ct - ms) < mf then mf else max 0 (ct - ms)) with hmaxFd
    have hmfle : mf ≤ maxF := by
      rw [hmaxFd]
      split_ifs with h
      · exact le_refl mf
      · exact not_lt.mp h
    by_cases hpos : 0 < ct
    · simp only [if_pos hpos] at hmem ⊢
      have hdivmem : (0:ℚ) ≤ clampQ (ct * clampQ d.ratio 0 1) mf maxF / ct ∧
          clampQ (ct * clampQ d.ratio 0 1) mf maxF / ct ≤ 1 := by
        constructor
        · exact div_nonneg hmem.1 hct0
        · rw [div_le_one hpos]
          exact hmem.2
      rw [clampQ_of_mem hdivmem.1 hdivmem.2]
      rw [mul_comm ct (clampQ (ct * clampQ d.ratio 0 1) mf maxF / ct),
        div_mul_cancel₀ _ (ne_of_gt hpos)]
      rw [clampQ_idem (ct * clampQ d.ratio 0 1) hmfle]
    · simp only [if_neg hpos]

/-- computeSizes writes back only ratio and fixedSize: every other data
field is untouched. -/
theorem computeSizes_data_rest (d : NodeData) (total : ℚ) :
    (computeSizes d total).data.widget = d.widget ∧
    (computeSizes d total).data.splitSizing = d.splitSizing ∧
    (computeSizes d total).data.minFirstSize = d.minFirstSize ∧
    (computeSizes d total).data.minSecondSize = d.minSecondSize ∧
    (computeSizes d total).data.calculatedMinWidth = d.calculatedMinWidth ∧
    (computeSizes d total).data.calculatedMinHeight = d.calculatedMinHeight ∧
    (computeSizes d total).data.activeTab = d.activeTab ∧
    (computeSizes d total).data.tabBarHeight = d.tabBarHeight := by
  exact ⟨rfl, rfl, rfl, rfl, rfl, rfl, rfl, rfl⟩

/-- Re-imposing the bounds a node already carries on the data produced by
computeSizes changes nothing. -/
theorem computeSizes_data_rebound' (x : NodeData) (b : DFRect) (total : ℚ)
    (hx : x.bounds = b) :
    { (computeSizes x total).data with bounds := b }
      = (computeSizes x total).data := by
  subst hx
  rfl

/-- The geometry pass writes bounds, ratio and fixedSize but no other data
field of the node it lays out. -/
theorem updateNode_data_fields (d : NodeData) (f s : LNode) (cs : List LNode)
    (b : DFRect) :
    (updateNode (LNode.node d f s cs) b).getData.type = d.type ∧
    (updateNode (LNode.node d f s cs) b).getData.widget = d.widget ∧
    (updateNode (LNode.node d f s cs) b).getData.vertical = d.vertical ∧
    (updateNode (LNode.node d f s cs) b).getData.splitSizing = d.splitSizing ∧
    (updateNode (LNode.node d f s cs) b).getData.minFirstSize = d.minFirstSize ∧
    (updateNode (LNode.node d f s cs) b).getData.minSecondSize = d.minSecondSize ∧
    (updateNode (LNode.node d f s cs) b).getData.calculatedMinWidth
      = d.calculatedMinWidth ∧
    (updateNode (LNode.node d f s cs) b).getData.calculatedMinHeight
      = d.calculatedMinHeight ∧
    (updateNode (LNode.node d f s cs) b).getData.activeTab = d.activeTab := by
  cases htype : d.type with
  | Split =>
    rw [updateNode]
    rw [htype]
    split_ifs <;> exact ⟨rfl, rfl, rfl, rfl, rfl, rfl, rfl, rfl, rfl⟩
  | Tab =>
    rw [updateNode]
    rw [htype]
    split_ifs <;> exact ⟨rfl, rfl, rfl, rfl, rfl, rfl, rfl, rfl, rfl⟩
  | Widget =>
    rw [updateNode]
    rw [htype]
    exact ⟨rfl, rfl, rfl, rfl, rfl, rfl, rfl, rfl, rfl⟩

/-- The geometry pass never creates or deletes a node slot. -/
theorem updateNode_isNull (t : LNode) (b : DFRect) :
    (updateNode t b).isNull = t.isNull := by
  cases t with
  | null => rw [updateNode]
  | node d f s cs =>
    rw [(updateNode_bounds d f s cs b).2]
    rfl

/-- The geometry pass never changes whether a slot holds a Tab node. -/
theorem updateNode_isTab (t : LNode) (b : DFRect) :
    (updateNode t b).isTab = t.isTab := by
  cases t with
  | null => rw [updateNode]
  | node d f s cs =>
    cases hru : updateNode (LNode.node d f s cs) b with
    | null =>
      have := (updateNode_bounds d f s cs b).2
      rw [hru] at this
      simp [LNode.isNull] at this
    | node d2 f2 s2 cs2 =>
      have := (updateNode_data_fields d f s cs b).1
      rw [hru] at this
      simp only [LNode.getData] at this
      simp only [LNode.isTab, this]

/-- The Tab-stacking loop lays out exactly one child per original child. -/
theorem tabLayoutChildren_length (b : DFRect) (sh : ℚ) :
    ∀ (cs : List LNode) (y : ℚ),
      (tabLayoutChildren b sh y cs).length = cs.length := by
  intro cs
  induction cs with
  | nil =>
    intro y
    rw [tabLayoutChildren]
  | cons c rest ih =>
    intro y
    cases rest with
    | nil =>
      rw [tabLayoutChildren]
      rfl
    | cons c2 rest2 =>
      rw [tabLayoutChildren]
      · simp only [List.length_cons]
        rw [ih (y + sh)]
        rfl
      · simp

/-- Every child produced by the Tab-stacking loop is the geometry update of
some original child. -/
theorem tabLayoutChildren_mem (b : DFRect) (sh : ℚ) :
    ∀ (cs : List LNode) (y : ℚ), ∀ x ∈ tabLayoutChildren b sh y cs,
      ∃ c ∈ cs, ∃ r : DFRect, x = updateNode c r := by
  intro cs
  induction cs with
  | nil =>
    intro y x hx
    rw [tabLayoutChildren] at hx
    cases hx
  | cons c rest ih =>
    intro y x hx
    cases rest with
    | nil =>
      rw [tabLayoutChildren] at hx
      rcases List.mem_singleton.mp hx with h
      exact ⟨c, List.mem_cons_self _ _, _, h⟩
    | cons c2 rest2 =>
      rw [tabLayoutChildren] at hx
      · rcases List.mem_cons.mp hx with h | h
        · exact ⟨c, List.mem_cons_self _ _, _, h⟩
        · obtain ⟨c', hc', r, hr⟩ := ih (y + sh) x h
          exact ⟨c', List.mem_cons_of_mem _ hc', r, hr⟩
      · simp

/-- Running the Tab-stacking loop on its own output reproduces it, as long
as updating each original child twice with the same rectangle is the same
as updating it once. -/
theorem tabLayoutChildren_idem (b : DFRect) (sh : ℚ) :
    ∀ (cs : List LNode) (y : ℚ),
      (∀ c ∈ cs, ∀ r : DFRect, updateNode (updateNode c r) r = updateNode c r) →
      tabLayoutChildren b sh y (tabLayoutChildren b sh y cs)
        = tabLayoutChildren b sh y cs := by
  intro cs
  induction cs with
  | nil =>
    intro y _
    rw [tabLayoutChildren]
    rw [tabLayoutChildren]
  | cons c rest ih =>
    intro y hok
    have hokc := hok c (List.mem_cons_self _ _)
    cases rest with
    | nil =>
      rw [tabLayoutChildren]
      rw [tabLayoutChildren]
      rw [hokc]
    | cons c2 rest2 =>
      rw [tabLayoutChildren]
      · cases hre : tabLayoutChildren b sh (y + sh) (c2 :: rest2) with
        | nil =>
          have := tabLayoutChildren_length b sh (c2 :: rest2) (y + sh)
          rw [hre] at this
          simp at this
        | cons x xs =>
          rw [tabLayoutChildren]
          · rw [hokc]
            rw [← hre]
            rw [ih (y + sh) (fun z hz => hok z (List.mem_cons_of_mem _ hz))]
          · simp
      · simp

/-- The Tab-stacking loop returns an empty vector only for an empty
input. -/
theorem tabLayoutChildren_isEmpty (b : DFRect) (sh : ℚ) (cs : List LNode)
    (y : ℚ) : (tabLayoutChildren b sh y cs).isEmpty = cs.isEmpty := by
  cases cs with
  | nil =>
    rw [tabLayoutChildren]
  | cons c rest =>
    cases rest with
    | nil =>
      rw [tabLayoutChildren]
      rfl
    | cons c2 rest2 =>
      rw [tabLayoutChildren]
      · rfl
      · simp

/-- Writing back the type and bounds a Split node already carries changes
nothing. -/
theorem NodeData.rebound_split (e : NodeData) (b : DFRect)
    (h1 : e.type = NodeType.Split) (h2 : e.bounds = b) :
    { e with type := NodeType.Split, bounds := b } = e := by
  subst h2
  rw [← h1]

/-- One unfolding of the geometry pass on a vertical Split node with both
children present. -/
theorem updateNode_split_vstep (e : NodeData) (f' s' : LNode) (cs : List LNode)
    (b : DFRect) (hty : e.type = NodeType.Split) (hf : f'.isNull = false)
    (hs : s'.isNull = false) (hv : e.vertical = true) (hb : e.bounds = b) :
    updateNode (LNode.node e f' s' cs) b =
      LNode.node (computeSizes e b.width).data
        (updateNode f' ⟨b.x, b.y, (computeSizes e b.width).firstSize, b.height⟩)
        (updateNode s' ⟨b.x + (computeSizes e b.width).firstSize, b.y,
          (computeSizes e b.width).secondSize, b.height⟩) cs := by
  rw [updateNode]
  rw [hty]
  rw [hf, hs]
  simp only [Bool.or_self, Bool.false_eq_true, if_false]
  rw [if_pos hv]
  rw [NodeData.rebound_split e b hty hb]

/-- One unfolding of the geometry pass on a horizontal Split node with both
children present. -/
theorem updateNode_split_hstep (e : NodeData) (f' s' : LNode) (cs : List LNode)
    (b : DFRect) (hty : e.type = NodeType.Split) (hf : f'.isNull = false)
    (hs : s'.isNull = false) (hv : e.vertical = false) (hb : e.bounds = b) :
    updateNode (LNode.node e f' s' cs) b =
      LNode.node (computeSizes e b.height).data
        (updateNode f' ⟨b.x, b.y, b.width, (computeSizes e b.height).firstSize⟩)
        (updateNode s' ⟨b.x, b.y + (computeSizes e b.height).firstSize, b.width,
          (computeSizes e b.height).secondSize⟩) cs := by
  rw [updateNode]
  rw [hty]
  rw [hf, hs]
  simp only [Bool.or_self, Bool.false_eq_true, if_false]
  rw [if_neg (show ¬(e.vertical = true) from by simp [hv])]
  rw [NodeData.rebound_split e b hty hb]

/-- Laying out a subtree twice with the same rectangle is the same as
laying it out once: the ratio/fixedSize write-back of computeSizes makes
the second pass reproduce identical sizes everywhere. -/
theorem updateNode_idem :
    ∀ t : LNode, ∀ b : DFRect, updateNode (updateNode t b) b = updateNode t b := by
  refine LNode.strong_ind _ ?_
  intro t ih
  cases t with
  | null =>
    intro b
    rw [updateNode]
    rw [updateNode]
  | node d f s cs =>
    intro b
    cases htype : d.type with
    | Widget =>
      rw [updateNode]
      rw [htype]
      dsimp only
      rw [updateNode]
    | Tab =>
      by_cases hemp : cs.isEmpty = true
      · rw [updateNode]
        rw [htype]
        rw [if_pos hemp]
        rw [updateNode]
        dsimp only
        rw [if_pos hemp]
      · rw [updateNode]
        rw [htype]
        rw [if_neg hemp]
        dsimp only
        rw [updateNode]
        dsimp only
        have hemp2 : ¬((tabLayoutChildren b
            (if 0 < (cs.length : ℚ) then b.height / (cs.length : ℚ) else b.height)
            b.y cs).isEmpty = true) := by
          rw [tabLayoutChildren_isEmpty]
          exact hemp
        rw [if_neg hemp2]
        rw [tabLayoutChildren_length]
        rw [tabLayoutChildren_idem _ _ cs _
          (fun c hc r => ih c (size_mem_lt d f s hc) r)]
    | Split =>
      by_cases hnul : (f.isNull || s.isNull) = true
      · rw [updateNode]
        rw [htype]
        rw [if_pos hnul]
        rw [updateNode]
        dsimp only
        rw [if_pos hnul]
      · have hnul' : (f.isNull || s.isNull) = false := by
          simpa using hnul
        cases f with
        | null => simp [LNode.isNull] at hnul'
        | node df ff sf csf =>
          cases s with
          | null => simp [LNode.isNull] at hnul'
          | node ds fs ss css =>
            have ihf := ih (LNode.node df ff sf csf)
              (size_first_lt d (LNode.node df ff sf csf) (LNode.node ds fs ss css) cs)
            have ihs := ih (LNode.node ds fs ss css)
              (size_second_lt d (LNode.node df ff sf csf) (LNode.node ds fs ss css) cs)
            by_cases hvert : d.vertical = true
            · rw [updateNode]
              rw [htype]
              rw [if_neg hnul]
              rw [if_pos hvert]
              dsimp only
              rw [updateNode_split_vstep
                (computeSizes { d with type := NodeType.Split, bounds := b }
                  b.width).data _ _ cs b
                ((computeSizes_data_fields
                  { d with type := NodeType.Split, bounds := b } b.width).2.1)
                ((updateNode_bounds df ff sf csf _).2)
                ((updateNode_bounds ds fs ss css _).2)
                ((computeSizes_vertical
                  { d with type := NodeType.Split, bounds := b } b.width).trans hvert)
                ((computeSizes_data_fields
                  { d with type := NodeType.Split, bounds := b } b.width).1)]
              rw [computeSizes_idem]
              rw [ihf, ihs]
            · have hvert' : d.vertical = false := by
                simpa using hvert
              rw [updateNode]
              rw [htype]
              rw [if_neg hnul]
              rw [if_neg hvert]
              dsimp only
              rw [updateNode_split_hstep
                (computeSizes { d with type := NodeType.Split, bounds := b }
                  b.height).data _ _ cs b
                ((computeSizes_data_fields
                  { d with type := NodeType.Split, bounds := b } b.height).2.1)
                ((updateNode_bounds df ff sf csf _).2)
                ((updateNode_bounds ds fs ss css _).2)
                ((computeSizes_vertical
                  { d with type := NodeType.Split, bounds := b } b.height).trans hvert')
                ((computeSizes_data_fields
                  { d with type := NodeType.Split, bounds := b } b.height).1)]
              rw [computeSizes_idem]
              rw [ihf, ihs]

/-- The geometry pass preserves the normalization invariant: it changes
only bounds, ratio and fixedSize, never the tree structure, the node
types, the widget pointers or the active tab indices. -/
theorem updateNode_normalized :
    ∀ t : LNode, NormalizedB t = true → ∀ b : DFRect,
      NormalizedB (updateNode t b) = true := by
  refine LNode.strong_ind _ ?_
  intro t ih
  cases t with
  | null =>
    intro h b
    rw [updateNode]
    exact h
  | node d f s cs =>
    intro hnorm b
    simp only [NormalizedB, Bool.and_eq_true] at hnorm
    obtain ⟨⟨⟨⟨hnf, hns⟩, hncs⟩, hnn⟩, hnty⟩ := hnorm
    cases htype : d.type with
    | Widget =>
      simp only [htype] at hnty
      rw [updateNode]
      rw [htype]
      simp only [NormalizedB, Bool.and_eq_true]
      exact ⟨⟨⟨⟨hnf, hns⟩, hncs⟩, hnn⟩, hnty⟩
    | Tab =>
      simp only [htype, Bool.and_eq_true, decide_eq_true_eq] at hnty
      obtain ⟨⟨⟨hlen2, htabs⟩, hat0⟩, hat1⟩ := hnty
      have hempF : cs.isEmpty = false := by
        cases cs with
        | nil => simp at hlen2
        | cons _ _ => rfl
      rw [updateNode]
      rw [htype]
      rw [if_neg (show ¬(cs.isEmpty = true) from by simp [hempF])]
      dsimp only
      simp only [NormalizedB, Bool.and_eq_true]
      refine ⟨⟨⟨⟨hnf, hns⟩, ?_⟩, ?_⟩, ?_⟩
      · rw [NormalizedListB_iff]
        intro x hx
        obtain ⟨c, hc, r, hr⟩ := tabLayoutChildren_mem _ _ cs _ x hx
        rw [hr]
        exact ih c (size_mem_lt d f s hc) ((NormalizedListB_iff cs).mp hncs c hc) r
      · rw [List.all_eq_true]
        intro x hx
        obtain ⟨c, hc, r, hr⟩ := tabLayoutChildren_mem _ _ cs _ x hx
        rw [hr]
        simp only [Bool.not_eq_true']
        rw [updateNode_isNull]
        have := List.all_eq_true.mp hnn c hc
        simpa using this
      · simp only [Bool.and_eq_true, decide_eq_true_eq]
        rw [tabLayoutChildren_length]
        refine ⟨⟨⟨hlen2, ?_⟩, hat0⟩, hat1⟩
        rw [List.all_eq_true]
        intro x hx
        obtain ⟨c, hc, r, hr⟩ := tabLayoutChildren_mem _ _ cs _ x hx
        rw [hr]
        simp only [Bool.not_eq_true']
        rw [updateNode_isTab]
        have := List.all_eq_true.mp htabs c hc
        simpa using this
    | Split =>
      simp only [htype, Bool.and_eq_true, Bool.not_eq_true'] at hnty
      obtain ⟨hfn, hsn⟩ := hnty
      have hnul : (f.isNull || s.isNull) = false := by
        rw [hfn, hsn]
        rfl
      cases f with
      | null => simp [LNode.isNull] at hfn
      | node df ff sf csf =>
        cases s with
        | null => simp [LNode.isNull] at hsn
        | node ds fs ss css =>
          have ihf := ih (LNode.node df ff sf csf)
            (size_first_lt d (LNode.node df ff sf csf) (LNode.node ds fs ss css) cs)
            hnf
          have ihs := ih (LNode.node ds fs ss css)
            (size_second_lt d (LNode.node df ff sf csf) (LNode.node ds fs ss css) cs)
            hns
          by_cases hvert : d.vertical = true
          · rw [updateNode]
            rw [htype]
            rw [if_neg (show ¬((LNode.node df ff sf csf).isNull
                || (LNode.node ds fs ss css).isNull) = true from by simp [hnul])]
            rw [if_pos hvert]
            dsimp only
            simp only [NormalizedB, Bool.and_eq_true]
            refine ⟨⟨⟨⟨ihf _, ihs _⟩, hncs⟩, hnn⟩, ?_⟩
            rw [(computeSizes_data_fields
              { d with type := NodeType.Split, bounds := b } b.width).2.1]
            simp only [Bool.and_eq_true, Bool.not_eq_true']
            exact ⟨(updateNode_bounds df ff sf csf _).2,
              (updateNode_bounds ds fs ss css _).2⟩
          · rw [updateNode]
            rw [htype]
            rw [if_neg (show ¬((LNode.node df ff sf csf).isNull
                || (LNode.node ds fs ss css).isNull) = true from by simp [hnul])]
            rw [if_neg hvert]
            dsimp only
            simp only [NormalizedB, Bool.and_eq_true]
            refine ⟨⟨⟨⟨ihf _, ihs _⟩, hncs⟩, hnn⟩, ?_⟩
            rw [(computeSizes_data_fields
              { d with type := NodeType.Split, bounds := b } b.height).2.1]
            simp only [Bool.and_eq_true, Bool.not_eq_true']
            exact ⟨(updateNode_bounds df ff sf csf _).2,
              (updateNode_bounds ds fs ss css _).2⟩

/-- A children vector fixed by recalcList is fixed memberwise. -/
theorem recalcList_fixed_mem (env : ℕ → DFSize) :
    ∀ cs : List LNode, recalcList env cs = cs →
      ∀ c ∈ cs, recalcMinSizes env c = c := by
  intro cs
  induction cs with
  | nil =>
    intro _ c hc
    cases hc
  | cons x rest ih =>
    intro h c hc
    rw [recalcList] at h
    rw [List.cons.injEq] at h
    rcases List.mem_cons.mp hc with h1 | h1
    · rw [h1]
      exact h.1
    · exact ih h.2 c h1

/-- A memberwise-fixed children vector is fixed by recalcList. -/
theorem recalcList_fixed_of (env : ℕ → DFSize) :
    ∀ cs : List LNode, (∀ c ∈ cs, recalcMinSizes env c = c) →
      recalcList env cs = cs := by
  intro cs
  induction cs with
  | nil =>
    intro _
    rw [recalcList]
  | cons x rest ih =>
    intro h
    rw [recalcList]
    rw [h x (List.mem_cons_self _ _), ih (fun c hc => h c (List.mem_cons_of_mem _ hc))]

/-- The geometry pass does not change a slot's calculated minimum width. -/
theorem updateNode_minW (t : LNode) (b : DFRect) :
    (updateNode t b).minW = t.minW := by
  cases t with
  | null => rw [updateNode]
  | node d f s cs =>
    cases hru : updateNode (LNode.node d f s cs) b with
    | null =>
      have := (updateNode_bounds d f s cs b).2
      rw [hru] at this
      simp [LNode.isNull] at this
    | node d2 f2 s2 cs2 =>
      have := (updateNode_data_fields d f s cs b).2.2.2.2.2.2.1
      rw [hru] at this
      simp only [LNode.getData] at this
      simp only [LNode.minW, this]

/-- The geometry pass does not change a slot's calculated minimum
height. -/
theorem updateNode_minH (t : LNode) (b : DFRect) :
    (updateNode t b).minH = t.minH := by
  cases t with
  | null => rw [updateNode]
  | node d f s cs =>
    cases hru : updateNode (LNode.node d f s cs) b with
    | null =>
      have := (updateNode_bounds d f s cs b).2
      rw [hru] at this
      simp [LNode.isNull] at this
    | node d2 f2 s2 cs2 =>
      have := (updateNode_data_fields d f s cs b).2.2.2.2.2.2.2.1
      rw [hru] at this
      simp only [LNode.getData] at this
      simp only [LNode.minH, this]

/-- Replacing the head of a Tab fold by its geometry update does not change
the fold: the accumulated fields are exactly the ones the update
preserves. -/
theorem tabFold_cons_update (c : LNode) (r : DFRect) (acc : ℚ × ℚ × Bool)
    (rest : List LNode) :
    tabFold acc (updateNode c r :: rest) = tabFold acc (c :: rest) := by
  cases c with
  | null =>
    rw [updateNode]
  | node e f s cs =>
    cases hru : updateNode (LNode.node e f s cs) r with
    | null =>
      have := (updateNode_bounds e f s cs r).2
      rw [hru] at this
      simp [LNode.isNull] at this
    | node e2 f2 s2 cs2 =>
      have hW := (updateNode_data_fields e f s cs r).2.2.2.2.2.2.1
      have hH := (updateNode_data_fields e f s cs r).2.2.2.2.2.2.2.1
      rw [hru] at hW hH
      simp only [LNode.getData] at hW hH
      rw [tabFold, tabFold, hW, hH]

/-- The Tab fold is invariant under the Tab-stacking layout loop. -/
theorem tabFold_tabLayout (b : DFRect) (sh : ℚ) :
    ∀ (cs : List LNode) (y : ℚ) (acc : ℚ × ℚ × Bool),
      tabFold acc (tabLayoutChildren b sh y cs) = tabFold acc cs := by
  intro cs
  induction cs with
  | nil =>
    intro y acc
    rw [tabLayoutChildren]
  | cons c rest ih =>
    intro y acc
    cases rest with
    | nil =>
      rw [tabLayoutChildren]
      rw [tabFold_cons_update]
    | cons c2 rest2 =>
      rw [tabLayoutChildren]
      · rw [tabFold_cons_update]
        cases c with
        | null =>
          rw [tabFold, tabFold]
          exact ih _ _
        | node e f s cs' =>
          rw [tabFold, tabFold]
          exact ih _ _
      · simp

/-- Collapsing a rewrite of the two calculated-minimum fields that writes
back the values already stored. -/
theorem NodeData.update_calc (x : NodeData) (X Y : ℚ)
    (h1 : X = x.calculatedMinWidth) (h2 : Y = x.calculatedMinHeight) :
    { x with calculatedMinWidth := X, calculatedMinHeight := Y } = x := by
  subst h1
  subst h2
  rfl

/-- Collapsing a rewrite of the four minimum fields of a Split node that
writes back the values already stored. -/
theorem NodeData.update_split_mins (x : NodeData) (X Y Z U : ℚ)
    (h1 : X = x.calculatedMinWidth) (h2 : Y = x.calculatedMinHeight)
    (h3 : Z = x.minFirstSize) (h4 : U = x.minSecondSize) :
    { x with
      calculatedMinWidth := X,
      calculatedMinHeight := Y,
      minFirstSize := Z,
      minSecondSize := U } = x := by
  subst h1
  subst h2
  subst h3
  subst h4
  rfl

/-- Memberwise idempotence lifts to recalcList. -/
theorem recalcList_idem_of (env : ℕ → DFSize) :
    ∀ cs : List LNode,
      (∀ c ∈ cs, recalcMinSizes env (recalcMinSizes env c) = recalcMinSizes env c) →
      recalcList env (recalcList env cs) = recalcList env cs := by
  intro cs
  induction cs with
  | nil =>
    intro _
    rw [recalcList]
    rw [recalcList]
  | cons x rest ih =>
    intro h
    rw [recalcList]
    rw [recalcList]
    rw [h x (List.mem_cons_self _ _)]
    rw [ih (fun c hc => h c (List.mem_cons_of_mem _ hc))]

/-- The bottom-up minimum-size pass is idempotent. -/
theorem recalc_recalc (env : ℕ → DFSize) :
    ∀ t : LNode,
      recalcMinSizes env (recalcMinSizes env t) = recalcMinSizes env t := by
  refine LNode.strong_ind _ ?_
  intro t ih
  cases t with
  | null =>
    rw [recalcMinSizes]
    rw [recalcMinSizes]
  | node d f s cs =>
    cases htype : d.type with
    | Widget =>
      simp only [recalcMinSizes, htype]
    | Tab =>
      have hcs : recalcList env (recalcList env cs) = recalcList env cs :=
        recalcList_idem_of env cs (fun c hc => ih c (size_mem_lt d f s hc))
      simp only [recalcMinSizes, htype, hcs]
    | Split =>
      have ihf := ih f (size_first_lt d f s cs)
      have ihs := ih s (size_second_lt d f s cs)
      by_cases hvert : d.vertical = true
      · simp [recalcMinSizes, htype, hvert, ihf, ihs]
      · have hvert' : d.vertical = false := by simpa using hvert
        simp [recalcMinSizes, htype, hvert', ihf, ihs]

/-- Children produced by the Tab-stacking loop are fixed by the
minimum-size pass whenever updating each original child is. -/
theorem recalcList_tabLayout (env : ℕ → DFSize) (b : DFRect) (sh : ℚ)
    (cs : List LNode) (y : ℚ)
    (h : ∀ c ∈ cs, ∀ r : DFRect,
      recalcMinSizes env (updateNode c r) = updateNode c r) :
    recalcList env (tabLayoutChildren b sh y cs) = tabLayoutChildren b sh y cs := by
  apply recalcList_fixed_of
  intro x hx
  obtain ⟨c, hc, r, hr⟩ := tabLayoutChildren_mem _ _ cs _ x hx
  rw [hr]
  exact h c hc r

/-- A tree fixed by the minimum-size pass stays fixed by it after the
geometry pass: updateNode writes only bounds, ratio and fixedSize, none of
which the minimum-size pass reads. -/
theorem recalc_stable_update (env : ℕ → DFSize) :
    ∀ t : LNode, recalcMinSizes env t = t → ∀ b : DFRect,
      recalcMinSizes env (updateNode t b) = updateNode t b := by
  refine LNode.strong_ind _ ?_
  intro t ih
  cases t with
  | null =>
    intro _ b
    rw [updateNode]
    rw [recalcMinSizes]
  | node d f s cs =>
    intro hstab b
    cases htype : d.type with
    | Widget =>
      simp only [recalcMinSizes, htype] at hstab
      rw [LNode.node.injEq] at hstab
      obtain ⟨hd, -, -, -⟩ := hstab
      have hW := congrArg NodeData.calculatedMinWidth hd
      have hH := congrArg NodeData.calculatedMinHeight hd
      dsimp only at hW hH
      rw [updateNode]
      rw [htype]
      simp only [recalcMinSizes]
      congr 1
      refine NodeData.update_calc
        { d with type := NodeType.Widget, bounds := b } _ _ ?_ ?_
      · exact hW
      · exact hH
    | Tab =>
      simp only [recalcMinSizes, htype] at hstab
      rw [LNode.node.injEq] at hstab
      obtain ⟨hd, -, -, hcs⟩ := hstab
      have hmem := recalcList_fixed_mem env cs hcs
      have hW := congrArg NodeData.calculatedMinWidth hd
      have hH := congrArg NodeData.calculatedMinHeight hd
      dsimp only at hW hH
      rw [hcs] at hW hH
      by_cases hemp : cs.isEmpty = true
      · have hcse : cs = [] := by rwa [List.isEmpty_iff] at hemp
        subst hcse
        simp only [recalcList, tabFold, Bool.false_eq_true, if_false] at hW hH
        rw [updateNode]
        rw [htype]
        rw [if_pos hemp]
        simp only [recalcMinSizes, recalcList, tabFold, Bool.false_eq_true,
          if_false]
        congr 1
        refine NodeData.update_calc
          { d with type := NodeType.Tab, bounds := b } _ _ ?_ ?_
        · exact hW
        · exact hH
      · rw [updateNode]
        rw [htype]
        rw [if_neg hemp]
        dsimp only
        simp only [recalcMinSizes]
        rw [recalcList_tabLayout env b _ cs _
          (fun c hc r => ih c (size_mem_lt d f s hc) (hmem c hc) r)]
        rw [tabFold_tabLayout]
        congr 1
        refine NodeData.update_calc
          { d with type := NodeType.Tab, bounds := b } _ _ ?_ ?_
        · exact hW
        · exact hH
    | Split =>
      by_cases hvert : d.vertical = true
      · simp only [recalcMinSizes, htype] at hstab
        rw [if_pos hvert] at hstab
        rw [LNode.node.injEq] at hstab
        obtain ⟨hd, hf1, hs1, -⟩ := hstab
        have hW := congrArg NodeData.calculatedMinWidth hd
        have hH := congrArg NodeData.calculatedMinHeight hd
        have hMF := congrArg NodeData.minFirstSize hd
        have hMS := congrArg NodeData.minSecondSize hd
        dsimp only at hW hH hMF hMS
        rw [hf1, hs1] at hW hH
        rw [hf1] at hMF
        rw [hs1] at hMS
        by_cases hnul : (f.isNull || s.isNull) = true
        · rw [updateNode]
          rw [htype]
          rw [if_pos hnul]
          simp only [recalcMinSizes]
          rw [if_pos hvert]
          rw [hf1, hs1]
          congr 1
          refine NodeData.update_split_mins
            { d with type := NodeType.Split, bounds := b } _ _ _ _ ?_ ?_ ?_ ?_
          · exact hW
          · exact hH
          · exact hMF
          · exact hMS
        · rw [updateNode]
          rw [htype]
          rw [if_neg hnul]
          rw [if_pos hvert]
          dsimp only
          simp only [recalcMinSizes]
          rw [(computeSizes_data_fields
            { d with type := NodeType.Split, bounds := b } b.width).2.1]
          dsimp only
          rw [computeSizes_vertical]
          rw [if_pos hvert]
          rw [ih f (size_first_lt d f s cs) hf1]
          rw [ih s (size_second_lt d f s cs) hs1]
          simp only [updateNode_minW, updateNode_minH]
          congr 1
          refine NodeData.update_split_mins
            (computeSizes { d with type := NodeType.Split, bounds := b } b.width).data _ _ _ _ ?_ ?_ ?_ ?_
          · exact hW
          · exact hH
          · exact hMF
          · exact hMS
      · simp only [recalcMinSizes, htype] at hstab
        rw [if_neg hvert] at hstab
        rw [LNode.node.injEq] at hstab
        obtain ⟨hd, hf1, hs1, -⟩ := hstab
        have hW := congrArg NodeData.calculatedMinWidth hd
        have hH := congrArg NodeData.calculatedMinHeight hd
        have hMF := congrArg NodeData.minFirstSize hd
        have hMS := congrArg NodeData.minSecondSize hd
        dsimp only at hW hH hMF hMS
        rw [hf1, hs1] at hW hH
        rw [hf1] at hMF
        rw [hs1] at hMS
        by_cases hnul : (f.isNull || s.isNull) = true
        · rw [updateNode]
          rw [htype]
          rw [if_pos hnul]
          simp only [recalcMinSizes]
          rw [if_neg hvert]
          rw [hf1, hs1]
          congr 1
          refine NodeData.update_split_mins
            { d with type := NodeType.Split, bounds := b } _ _ _ _ ?_ ?_ ?_ ?_
          · exact hW
          · exact hH
          · exact hMF
          · exact hMS
        · rw [updateNode]
          rw [htype]
          rw [if_neg hnul]
          rw [if_neg hvert]
          dsimp only
          simp only [recalcMinSizes]
          rw [(computeSizes_data_fields
            { d with type := NodeType.Split, bounds := b } b.height).2.1]
          dsimp only
          rw [computeSizes_vertical]
          rw [if_neg hvert]
          rw [ih f (size_first_lt d f s cs) hf1]
          rw [ih s (size_second_lt d f s cs) hs1]
          simp only [updateNode_minW, updateNode_minH]
          congr 1
          refine NodeData.update_split_mins
            (computeSizes { d with type := NodeType.Split, bounds := b } b.height).data _ _ _ _ ?_ ?_ ?_ ?_
          · exact hW
          · exact hH
          · exact hMF
          · exact hMS

/-- C4: DockLayout::update is idempotent: running the full update pass
(normalize, recalculate minimum sizes, lay out geometry) twice in a row
with the same container rectangle returns exactly the same tree as running
it once — in particular every node carries identical bounds — because the
first pass writes back the effective ratio/fixedSize, which makes the
second geometry pass reproduce identical sizes. -/
theorem C4_theorem (env : ℕ → DFSize) (c : DFRect) (t : LNode) :
    layoutUpdate env c (layoutUpdate env c t) = layoutUpdate env c t := by
  by_cases hnull : t.isNull = true
  · have h1 : layoutUpdate env c t = t := by
      rw [layoutUpdate, if_pos hnull]
    rw [h1]
    exact h1
  · have hnorm : NormalizedB (normalizeNode t) = true :=
      (layoutNormalizeFuel_normalized (t.size + 1)).1 t (normalizeNode t)
        (normalizeNode_spec t).1
    by_cases h1null : (normalizeNode t).isNull = true
    · have h1 : layoutUpdate env c t = normalizeNode t := by
        rw [layoutUpdate]
        rw [if_neg hnull]
        dsimp only
        rw [if_pos h1null]
      have h1n : normalizeNode t = LNode.null := by
        cases hne : normalizeNode t with
        | null => rfl
        | node d f s cs =>
          rw [hne] at h1null
          simp [LNode.isNull] at h1null
      rw [h1, h1n]
      rw [layoutUpdate]
      rw [if_pos (show LNode.null.isNull = true from rfl)]
    · have h1 : layoutUpdate env c t
          = updateNode (recalcMinSizes env (normalizeNode t)) c := by
        rw [layoutUpdate]
        rw [if_neg hnull]
        dsimp only
        rw [if_neg h1null]
      rw [h1]
      have hrnn : (recalcMinSizes env (normalizeNode t)).isNull = false := by
        rw [recalc_isNull]
        simpa using h1null
      have hunn : (updateNode (recalcMinSizes env (normalizeNode t)) c).isNull
          = false := by
        rw [updateNode_isNull]
        exact hrnn
      have hnu : NormalizedB
          (updateNode (recalcMinSizes env (normalizeNode t)) c) = true :=
        updateNode_normalized _ (recalc_normalized env _ hnorm) c
      have hfix : normalizeNode
            (updateNode (recalcMinSizes env (normalizeNode t)) c)
          = updateNode (recalcMinSizes env (normalizeNode t)) c := by
        rw [normalizeNode]
        rw [(layoutNormalizeFuel_fixpoint _).1 _ hnu (Nat.lt_succ_self _)]
        rfl
      have hstab : recalcMinSizes env
            (updateNode (recalcMinSizes env (normalizeNode t)) c)
          = updateNode (recalcMinSizes env (normalizeNode t)) c :=
        recalc_stable_update env (recalcMinSizes env (normalizeNode t))
          (recalc_recalc env (normalizeNode t)) c
      rw [layoutUpdate]
      rw [if_neg (show ¬((updateNode (recalcMinSizes env (normalizeNode t))
          c).isNull = true) from by rw [hunn]; simp)]
      dsimp only
      rw [hfix]
      rw [if_neg (show ¬((updateNode (recalcMinSizes env (normalizeNode t))
          c).isNull = true) from by rw [hunn]; simp)]
      rw [hstab]
      exact updateNode_idem _ c

mutual

/-- Whether the docked tree holds a Widget node for panel id `w` (the node
RemoveWidgetNode extracts: `node->type == Widget && node->widget ==
target`). -/
def containsWidget : LNode → ℕ → Bool
  | .null, _ => false
  | .node d f s cs, w =>
    (d.type == NodeType.Widget && d.widget == some w) ||
    containsWidget f w || containsWidget s w || containsList cs w

/-- containsWidget over a children vector. -/
def containsList : List LNode → ℕ → Bool
  | [], _ => false
  | c :: cs, w => containsWidget c w || containsList cs w

end

mutual

/-- Models RemoveWidgetNode (dock_framework.cpp lines 183-219) on the slot
holding `t`: returns the slot's new contents, the extracted subtree, and
the found flag.  A null target pointer never occurs at the call sites
modelled here (both guard on the widget before taking the root).  On
success along `first`/`second`/a child, the C++ recurseChild lambda
normalizes the mutated child slot and the caller then normalizes the node
itself; both use the orchestrator's shallow NormalizeNode. -/
def removeWidgetNode (t : LNode) (target : ℕ) : LNode × Option LNode × Bool :=
  match t with
  | .null => (.null, none, false)
  | .node d f s cs =>
    if d.type == NodeType.Widget && d.widget == some target then
      (.null, some (.node d f s cs), true)
    else
      match removeWidgetNode f target with
      | (f1, ex, true) =>
        (frameworkNormalizeNode (.node d (frameworkNormalizeNode f1) s cs), ex, true)
      | (f1, _, false) =>
        match removeWidgetNode s target with
        | (s1, ex, true) =>
          (frameworkNormalizeNode (.node d f1 (frameworkNormalizeNode s1) cs), ex, true)
        | (s1, _, false) =>
          match removeList cs target with
          | (cs1, ex, true) =>
            (frameworkNormalizeNode (.node d f1 s1 cs1), ex, true)
          | (cs1, _, false) => (.node d f1 s1 cs1, none, false)
termination_by (t.size, 0)
decreasing_by
  all_goals simp_wf
  all_goals simp only [LNode.size, LNode.size.sizeList]
  all_goals first
    | (apply Prod.Lex.left; omega)
    | (apply Prod.Lex.right' <;> omega)
    | omega

/-- The children loop of RemoveWidgetNode: tries each child in order; on
success the mutated child slot is normalized in place and the loop
stops. -/
def removeList (cs : List LNode) (target : ℕ) : List LNode × Option LNode × Bool :=
  match cs with
  | [] => ([], none, false)
  | c :: rest =>
    match removeWidgetNode c target with
    | (c1, ex, true) => (frameworkNormalizeNode c1 :: rest, ex, true)
    | (c1, _, false) =>
      match removeList rest target with
      | (rest1, ex, fnd) => (c1 :: rest1, ex, fnd)
termination_by (LNode.size.sizeList cs, cs.length)
decreasing_by
  all_goals simp_wf
  all_goals simp only [LNode.size, LNode.size.sizeList]
  all_goals first
    | (apply Prod.Lex.left; omega)
    | (apply Prod.Lex.right' <;> omega)
    | omega

end

/-- The root transformation shared by DockManager::closeDockedWidget
(dock_framework.cpp lines 729-752) and DockManager::startUndockDrag (lines
772-799): take the root, run RemoveWidgetNode, and on failure put the same
root back; on success normalize the root and store it.  The remaining work
of both functions only touches the extracted widget or floating windows,
never the docked tree. -/
def closeDockedRoot (root : LNode) (w : ℕ) : LNode :=
  if root.isNull then root
  else
    match removeWidgetNode root w with
    | (r1, _, found) => if found then frameworkNormalizeNode r1 else r1

/-- A children vector without the widget has no member holding it. -/
theorem containsList_false_mem {cs : List LNode} {w : ℕ}
    (h : containsList cs w = false) :
    ∀ c ∈ cs, containsWidget c w = false := by
  induction cs with
  | nil =>
    intro c hc
    cases hc
  | cons x rest ih =>
    rw [containsList, Bool.or_eq_false_iff] at h
    intro c hc
    rcases List.mem_cons.mp hc with h1 | h1
    · rw [h1]
      exact h.1
    · exact ih h.2 c h1

/-- If removal is a no-op on every child, the children loop is a no-op. -/
theorem removeList_id_of :
    ∀ (cs : List LNode) (w : ℕ),
      (∀ c ∈ cs, removeWidgetNode c w = (c, none, false)) →
      removeList cs w = (cs, none, false) := by
  intro cs w
  induction cs with
  | nil =>
    intro _
    rw [removeList]
  | cons x rest ih =>
    intro h
    rw [removeList]
    rw [h x (List.mem_cons_self _ _)]
    rw [ih (fun c hc => h c (List.mem_cons_of_mem _ hc))]

/-- Removing a widget that is nowhere in the tree finds nothing, extracts
nothing, and leaves every node of the tree unchanged. -/
theorem removeWidgetNode_not_found :
    ∀ t : LNode, ∀ w : ℕ, containsWidget t w = false →
      removeWidgetNode t w = (t, none, false) := by
  refine LNode.strong_ind _ ?_
  intro t ih
  cases t with
  | null =>
    intro w _
    rw [removeWidgetNode]
  | node d f s cs =>
    intro w hc
    rw [containsWidget, Bool.or_eq_false_iff, Bool.or_eq_false_iff,
      Bool.or_eq_false_iff] at hc
    obtain ⟨⟨⟨hw, hf⟩, hs⟩, hcs⟩ := hc
    rw [removeWidgetNode]
    rw [if_neg (by rw [hw]; simp)]
    rw [ih f (size_first_lt d f s cs) w hf]
    dsimp only
    rw [ih s (size_second_lt d f s cs) w hs]
    dsimp only
    rw [removeList_id_of cs w
      (fun c hcm => ih c (size_mem_lt d f s hcm) w (containsList_false_mem hcs c hcm))]

/-- C7: a tree-rewriting operation on a widget absent from the docked tree
is a no-op: RemoveWidgetNode reports "not found" without extracting or
changing anything, and the shared root handling of closeDockedWidget and
startUndockDrag puts the exact same root back. -/
theorem C7_theorem :
    (∀ (t : LNode) (w : ℕ), containsWidget t w = false →
      removeWidgetNode t w = (t, none, false)) ∧
    (∀ (t : LNode) (w : ℕ), containsWidget t w = false →
      closeDockedRoot t w = t) := by
  constructor
  · exact removeWidgetNode_not_found
  · intro t w hc
    rw [closeDockedRoot]
    by_cases hnull : t.isNull = true
    · rw [if_pos hnull]
    · rw [if_neg hnull]
      rw [removeWidgetNode_not_found t w hc]
      rfl

/-- A concrete one-widget tree holding panel 1. -/
def c7Node : LNode :=
  LNode.node { type := NodeType.Widget, widget := some 1 } LNode.null LNode.null []

/-- C7 witness: removing the absent panel 2 from the one-widget tree is a
no-op. -/
theorem C7_witness :
    containsWidget c7Node 2 = false ∧
    removeWidgetNode c7Node 2 = (c7Node, none, false) ∧
    closeDockedRoot c7Node 2 = c7Node := by
  have hc : containsWidget c7Node 2 = false := by
    simp [c7Node, containsWidget, containsList]
  exact ⟨hc, C7_theorem.1 c7Node 2 hc, C7_theorem.2 c7Node 2 hc⟩

/-- The drag bookkeeping fields of DockManager::DragData used by the
docked branch of updateDrag.  `active` stands for the C++ guard
`drag_.active && drag_.widget`. -/
structure DragData where
  startPos : DFPoint
  lastPos : DFPoint
  currentPos : DFPoint
  startBounds : DFRect
  active : Bool
deriving DecidableEq, Repr

/-- The undock threshold computed by DockManager::updateDrag
(dock_framework.cpp lines 669-678): 4900 (~70px) by default, and 1024
(~32px) when the container area exceeds 1 and the start-bounds area covers
more than 0.85 of it. -/
def undockThresholdSq (startBounds container : DFRect) : ℚ :=
  let widgetArea := startBounds.width * startBounds.height
  let containerArea := container.width * container.height
  if 1 < containerArea then
    if (85/100 : ℚ) < widgetArea / containerArea then 1024 else 4900
  else 4900

/-- The undock threshold as the specification words it: lowered exactly
when the start-bounds area exceeds 0.85 of the container area, with no
condition on the container area itself. -/
def claimThresholdSq (startBounds container : DFRect) : ℚ :=
  if (85/100 : ℚ) * (container.width * container.height)
      < startBounds.width * startBounds.height
  then 1024 else 4900

/-- Models the docked (non-floating) branch of DockManager::updateDrag
(dock_framework.cpp lines 657-695): records the current mouse position,
compares the squared distance from the drag start against the undock
threshold, and returns the new drag bookkeeping together with whether the
undock transition fired (in which case the manager calls endDrag and
startUndockDrag).  The branch never writes the widget's bounds: when it
does not fire it only advances lastPos. -/
def dockedUpdateDrag (dr : DragData) (mousePos : DFPoint)
    (container : DFRect) (isSingleDocked : Bool) : DragData × Bool :=
  if dr.active = false then (dr, false)
  else
    let dr1 := { dr with currentPos := mousePos }
    let dxFromStart := mousePos.x - dr.startPos.x
    let dyFromStart := mousePos.y - dr.startPos.y
    let distanceSq := dxFromStart * dxFromStart + dyFromStart * dyFromStart
    let movedEnough := decide (undockThresholdSq dr.startBounds container < distanceSq)
    if isSingleDocked && movedEnough then (dr1, true)
    else ({ dr1 with lastPos := mousePos }, false)

/-- The code's threshold equals 1024 exactly when the container area
exceeds 1 AND coverage exceeds 0.85; otherwise 4900. -/
theorem undockThresholdSq_eq (sb cb : DFRect) :
    undockThresholdSq sb cb =
      if 1 < cb.width * cb.height ∧
          (85/100 : ℚ) * (cb.width * cb.height) < sb.width * sb.height
      then 1024 else 4900 := by
  unfold undockThresholdSq
  by_cases h1 : 1 < cb.width * cb.height
  · have hpos : 0 < cb.width * cb.height := lt_trans one_pos h1
    rw [if_pos h1]
    by_cases h2 : (85/100 : ℚ) < sb.width * sb.height / (cb.width * cb.height)
    · rw [if_pos h2, if_pos ⟨h1, (lt_div_iff₀ hpos).mp h2⟩]
    · rw [if_neg h2, if_neg ?_]
      intro hcon
      exact h2 ((lt_div_iff₀ hpos).mpr hcon.2)
  · rw [if_neg h1, if_neg (fun hcon => h1 hcon.1)]

/-- C8: while a docked-panel drag is active, the undock transition fires
exactly when the panel is single-docked and the squared distance from the
drag start exceeds the undock threshold; the threshold is 4900 by default
and is lowered to 1024 exactly when the container area exceeds 1 AND the
start-bounds area exceeds 0.85 of the container area; and when the
transition does not fire the branch only advances the drag bookkeeping,
leaving the panel's bounds untouched. -/
theorem C8_theorem :
    (∀ sb cb : DFRect, undockThresholdSq sb cb =
      if 1 < cb.width * cb.height ∧
          (85/100 : ℚ) * (cb.width * cb.height) < sb.width * sb.height
      then 1024 else 4900) ∧
    (∀ (dr : DragData) (mp : DFPoint) (cb : DFRect) (single : Bool),
      dr.active = true →
      (dockedUpdateDrag dr mp cb single).2
        = (single && decide (undockThresholdSq dr.startBounds cb <
            (mp.x - dr.startPos.x) * (mp.x - dr.startPos.x) +
            (mp.y - dr.startPos.y) * (mp.y - dr.startPos.y)))) ∧
    (∀ (dr : DragData) (mp : DFPoint) (cb : DFRect) (single : Bool),
      dr.active = true →
      (dockedUpdateDrag dr mp cb single).2 = false →
      (dockedUpdateDrag dr mp cb single).1
        = { dr with currentPos := mp, lastPos := mp }) := by
  refine ⟨undockThresholdSq_eq, ?_, ?_⟩
  · intro dr mp cb single h
    rw [dockedUpdateDrag, if_neg (by simp [h])]
    dsimp only
    by_cases hcond : (single && decide (undockThresholdSq dr.startBounds cb <
        (mp.x - dr.startPos.x) * (mp.x - dr.startPos.x) +
        (mp.y - dr.startPos.y) * (mp.y - dr.startPos.y))) = true
    · rw [if_pos hcond]
      exact hcond.symm
    · rw [if_neg hcond]
      exact (Bool.eq_false_iff.mpr hcond).symm
  · intro dr mp cb single h
    rw [dockedUpdateDrag, if_neg (by simp [h])]
    dsimp only
    by_cases hcond : (single && decide (undockThresholdSq dr.startBounds cb <
        (mp.x - dr.startPos.x) * (mp.x - dr.startPos.x) +
        (mp.y - dr.startPos.y) * (mp.y - dr.startPos.y))) = true
    · rw [if_pos hcond]
      intro hfalse
      simp at hfalse
    · rw [if_neg hcond]
      intro _
      rfl

/-- C8 counterexample: a container of area exactly 1, fully covered by the
panel.  The specification's threshold rule (no container-area condition)
gives 1024 and predicts the undock fires after a 40px drag; the code keeps
the default 4900 because containerArea > 1.0f fails, and does not fire. -/
theorem C8_counterexample :
    claimThresholdSq ⟨0, 0, 1, 1⟩ ⟨0, 0, 1, 1⟩ = 1024 ∧
    undockThresholdSq ⟨0, 0, 1, 1⟩ ⟨0, 0, 1, 1⟩ = 4900 ∧
    (dockedUpdateDrag ⟨⟨0, 0⟩, ⟨0, 0⟩, ⟨0, 0⟩, ⟨0, 0, 1, 1⟩, true⟩ ⟨40, 0⟩
      ⟨0, 0, 1, 1⟩ true).2 = false ∧
    (1024 : ℚ) < ((40 : ℚ) - 0) * ((40 : ℚ) - 0) + ((0 : ℚ) - 0) * ((0 : ℚ) - 0) := by
  refine ⟨?_, ?_, ?_, by norm_num⟩
  · norm_num [claimThresholdSq]
  · norm_num [undockThresholdSq]
  · norm_num [dockedUpdateDrag, undockThresholdSq]

/-- C8 witness: a concrete active single-docked drag on a 2x2 panel in a
4x4 container moved 100px. -/
theorem C8_witness :
    (dockedUpdateDrag ⟨⟨0, 0⟩, ⟨0, 0⟩, ⟨0, 0⟩, ⟨0, 0, 2, 2⟩, true⟩ ⟨100, 0⟩
        ⟨0, 0, 4, 4⟩ true).2
      = (true && decide (undockThresholdSq ⟨0, 0, 2, 2⟩ ⟨0, 0, 4, 4⟩ <
          ((100 : ℚ) - 0) * ((100 : ℚ) - 0) + ((0 : ℚ) - 0) * ((0 : ℚ) - 0))) :=
  C8_theorem.2.1 ⟨⟨0, 0⟩, ⟨0, 0⟩, ⟨0, 0⟩, ⟨0, 0, 2, 2⟩, true⟩ ⟨100, 0⟩
    ⟨0, 0, 4, 4⟩ true rfl

/-- One entry of DockSplitter::splitters_ (dock_splitter.h).  `nodeId` is
the Node* pointer, embedded as the node's identity. -/
structure SplitterRec where
  vertical : Bool := true
  position : ℚ := 1/2
  bounds : DFRect := ⟨0, 0, 0, 0⟩
  parentBounds : DFRect := ⟨0, 0, 0, 0⟩
  nodeId : ℕ := 0
  dragging : Bool := false
deriving DecidableEq, Repr

/-- The controller state of DockSplitter (dock_splitter.h private
fields). -/
structure SplitterState where
  splitters : List SplitterRec := []
  activeNode : Option ℕ := none
  hoveredNode : Option ℕ := none
  activeVertical : Bool := true
  activeParentBounds : DFRect := ⟨0, 0, 0, 0⟩
  activeGrabOffset : ℚ := 0
deriving DecidableEq, Repr

/-- Models DockSplitter::collectSplitters (dock_splitter.cpp lines 41-76):
walks only chains of Split nodes, computes the splitter lane and the two
child rectangles, recurses into both sides, and appends the node's
splitter after its subtrees. -/
def collectSplitters (active : Option ℕ) : LNode → DFRect → List SplitterRec
  | .null, _ => []
  | .node d f s _, bounds =>
    if d.type == NodeType.Split then
      if d.vertical then
        let availableWidth := max 0 (bounds.width - SPLITTER_THICKNESS)
        let splitX := bounds.x + availableWidth * clampQ d.ratio 0 1
        let secondX := splitX + SPLITTER_THICKNESS
        let first : DFRect := ⟨bounds.x, bounds.y, max 0 (splitX - bounds.x), bounds.height⟩
        let second : DFRect :=
          ⟨secondX, bounds.y, max 0 (bounds.x + bounds.width - secondX), bounds.height⟩
        collectSplitters active f first ++ collectSplitters active s second ++
          [{ vertical := d.vertical, position := d.ratio,
             bounds := ⟨splitX, bounds.y, SPLITTER_THICKNESS, bounds.height⟩,
             parentBounds := bounds, nodeId := d.nid,
             dragging := active == some d.nid }]
      else
        let availableHeight := max 0 (bounds.height - SPLITTER_THICKNESS)
        let splitY := bounds.y + availableHeight * clampQ d.ratio 0 1
        let secondY := splitY + SPLITTER_THICKNESS
        let first : DFRect := ⟨bounds.x, bounds.y, bounds.width, max 0 (splitY - bounds.y)⟩
        let second : DFRect :=
          ⟨bounds.x, secondY, bounds.width, max 0 (bounds.y + bounds.height - secondY)⟩
        collectSplitters active f first ++ collectSplitters active s second ++
          [{ vertical := d.vertical, position := d.ratio,
             bounds := ⟨bounds.x, splitY, bounds.width, SPLITTER_THICKNESS⟩,
             parentBounds := bounds, nodeId := d.nid,
             dragging := active == some d.nid }]
    else []

/-- Models DockSplitter::updateSplitters (dock_splitter.cpp lines 8-39):
rebuild the splitter list, then drop a stale active drag and a stale
hovered node when their nodes are no longer in the rebuilt list. -/
def updateSplitters (st : SplitterState) (root : LNode)
    (containerBounds : DFRect) : SplitterState :=
  let sps := collectSplitters st.activeNode root containerBounds
  let st1 := { st with splitters := sps }
  let st2 :=
    match st1.activeNode with
    | some a =>
      if st1.splitters.any (fun sp => sp.nodeId == a) then st1
      else { st1 with activeNode := none, activeGrabOffset := 0 }
    | none => st1
  match st2.hoveredNode with
  | some h =>
    if st2.splitters.any (fun sp => sp.nodeId == h) then st2
    else { st2 with hoveredNode := none }
  | none => st2

/-- Models DockSplitter::isDragging (dock_splitter.h line 26). -/
def isDragging (st : SplitterState) : Bool := st.activeNode.isSome

/-- Models DockSplitter::updateDrag (dock_splitter.cpp lines 113-167) as a
function of the controller state and the data `d` of the active node:
returns `none` exactly when the function returns without writing to any
node (no active node, or no available extent), and otherwise the sizes and
the node data written back.  The loop over splitters_ that refreshes the
active orientation and parent bounds is the find-first below. -/
def splitterDrag (st : SplitterState) (d : NodeData) (p : DFPoint) :
    Option SizeResult :=
  match st.activeNode with
  | none => none
  | some a =>
    let refreshed :=
      match st.splitters.find? (fun sp => sp.nodeId == a) with
      | some sp => (sp.vertical, sp.parentBounds)
      | none => (st.activeVertical, st.activeParentBounds)
    splitterUpdateDrag refreshed.1 refreshed.2 st.activeGrabOffset d p

mutual

/-- The identities of all Split nodes present anywhere in a tree. -/
def splitNodeIds : LNode → List ℕ
  | .null => []
  | .node d f s cs =>
    (if d.type == NodeType.Split then [d.nid] else []) ++
    splitNodeIds f ++ splitNodeIds s ++ splitNodeIdsList cs

/-- splitNodeIds over a children vector. -/
def splitNodeIdsList : List LNode → List ℕ
  | [] => []
  | c :: cs => splitNodeIds c ++ splitNodeIdsList cs

end

/-- Every splitter collected by collectSplitters belongs to a Split node
of the tree. -/
theorem collectSplitters_sub (active : Option ℕ) :
    ∀ (t : LNode) (b : DFRect) (sp : SplitterRec),
      sp ∈ collectSplitters active t b → sp.nodeId ∈ splitNodeIds t := by
  refine LNode.strong_ind _ ?_
  intro t ih
  cases t with
  | null =>
    intro b sp hsp
    rw [collectSplitters] at hsp
    cases hsp
  | node d f s cs =>
    have ihf := fun (b : DFRect) (sp : SplitterRec) =>
      ih f (size_first_lt d f s cs) b sp
    have ihs := fun (b : DFRect) (sp : SplitterRec) =>
      ih s (size_second_lt d f s cs) b sp
    intro b sp hsp
    rw [collectSplitters] at hsp
    by_cases hty : (d.type == NodeType.Split) = true
    · rw [if_pos hty] at hsp
      rw [splitNodeIds]
      rw [if_pos hty]
      by_cases hv : d.vertical = true
      · rw [if_pos hv] at hsp
        simp only [List.mem_append, List.mem_singleton] at hsp
        rcases hsp with (h | h) | h
        · simp only [List.mem_append]
          exact Or.inl (Or.inl (Or.inr (ihf _ sp h)))
        · simp only [List.mem_append]
          exact Or.inl (Or.inr (ihs _ sp h))
        · subst h
          simp
      · rw [if_neg hv] at hsp
        simp only [List.mem_append, List.mem_singleton] at hsp
        rcases hsp with (h | h) | h
        · simp only [List.mem_append]
          exact Or.inl (Or.inl (Or.inr (ihf _ sp h)))
        · simp only [List.mem_append]
          exact Or.inl (Or.inr (ihs _ sp h))
        · subst h
          simp
    · rw [if_neg hty] at hsp
      cases hsp

/-- C9: after updateSplitters runs, an in-progress drag whose node is no
longer a Split node present in the tree is cancelled: the active node is
cleared, isDragging() is false, and a subsequent updateDrag writes to no
node; a stale hovered node is likewise cleared. -/
theorem C9_theorem :
    (∀ (st : SplitterState) (root : LNode) (cb : DFRect) (a : ℕ),
      st.activeNode = some a → a ∉ splitNodeIds root →
      (updateSplitters st root cb).activeNode = none ∧
      isDragging (updateSplitters st root cb) = false ∧
      ∀ (d : NodeData) (p : DFPoint),
        splitterDrag (updateSplitters st root cb) d p = none) ∧
    (∀ (st : SplitterState) (root : LNode) (cb : DFRect) (h : ℕ),
      st.hoveredNode = some h → h ∉ splitNodeIds root →
      (updateSplitters st root cb).hoveredNode = none) := by
  constructor
  · intro st root cb a ha hnotin
    have hany : (collectSplitters (some a) root cb).any
        (fun sp => sp.nodeId == a) = false := by
      rw [List.any_eq_false]
      intro sp hsp
      have hmem := collectSplitters_sub (some a) root cb sp hsp
      simp only [beq_eq_false_iff_ne, ne_eq]
      intro heq
      rw [beq_iff_eq.mp heq] at hmem
      exact hnotin hmem
    have hres : (updateSplitters st root cb).activeNode = none := by
      rw [updateSplitters]
      dsimp only
      rw [ha]
      dsimp only
      rw [hany]
      simp only [Bool.false_eq_true, if_false]
      cases hh : st.hoveredNode with
      | none => rfl
      | some h' =>
        dsimp only
        by_cases hcc : (collectSplitters (some a) root cb).any
            (fun sp => sp.nodeId == h') = true
        · rw [if_pos hcc]
        · rw [if_neg hcc]
    refine ⟨hres, ?_, ?_⟩
    · rw [isDragging, hres]
      rfl
    · intro d p
      rw [splitterDrag]
      rw [hres]
  · intro st root cb h hh hnotin
    have hany : ∀ act : Option ℕ, (collectSplitters act root cb).any
        (fun sp => sp.nodeId == h) = false := by
      intro act
      rw [List.any_eq_false]
      intro sp hsp
      have hmem := collectSplitters_sub act root cb sp hsp
      simp only [beq_eq_false_iff_ne, ne_eq]
      intro heq
      rw [beq_iff_eq.mp heq] at hmem
      exact hnotin hmem
    rw [updateSplitters]
    dsimp only
    cases hac : st.activeNode with
    | none =>
      dsimp only
      rw [hh]
      dsimp only
      rw [hany none]
      simp only [Bool.false_eq_true, if_false]
    | some a =>
      dsimp only
      by_cases hcc : (collectSplitters (some a) root cb).any
          (fun sp => sp.nodeId == a) = true
      · rw [if_pos hcc]
        rw [hh]
        dsimp only
        rw [hany (some a)]
        simp only [Bool.false_eq_true, if_false]
      · rw [if_neg hcc]
        rw [hh]
        dsimp only
        rw [hany (some a)]
        simp only [Bool.false_eq_true, if_false]

/-- A concrete one-widget root with no Split node anywhere. -/
def c9Root : LNode :=
  LNode.node { type := NodeType.Widget, widget := some 3 } LNode.null LNode.null []

/-- C9 witness: a drag active on node id 5 and a hover on id 7, neither of
which is a Split node of the one-widget root, are both cleared. -/
theorem C9_witness :
    (5 : ℕ) ∉ splitNodeIds c9Root ∧
    (7 : ℕ) ∉ splitNodeIds c9Root ∧
    (updateSplitters ⟨[], some 5, some 7, true, ⟨0, 0, 0, 0⟩, 0⟩ c9Root
      ⟨0, 0, 100, 100⟩).activeNode = none ∧
    isDragging (updateSplitters ⟨[], some 5, some 7, true, ⟨0, 0, 0, 0⟩, 0⟩ c9Root
      ⟨0, 0, 100, 100⟩) = false ∧
    (updateSplitters ⟨[], some 5, some 7, true, ⟨0, 0, 0, 0⟩, 0⟩ c9Root
      ⟨0, 0, 100, 100⟩).hoveredNode = none := by
  have h5 : (5 : ℕ) ∉ splitNodeIds c9Root := by
    simp [c9Root, splitNodeIds, splitNodeIdsList]
  have h7 : (7 : ℕ) ∉ splitNodeIds c9Root := by
    simp [c9Root, splitNodeIds, splitNodeIdsList]
  have hmain := C9_theorem.1 ⟨[], some 5, some 7, true, ⟨0, 0, 0, 0⟩, 0⟩ c9Root
    ⟨0, 0, 100, 100⟩ 5 rfl h5
  have hhov := C9_theorem.2 ⟨[], some 5, some 7, true, ⟨0, 0, 0, 0⟩, 0⟩ c9Root
    ⟨0, 0, 100, 100⟩ 7 rfl h7
  exact ⟨h5, h7, hmain.1, hmain.2.1, hhov⟩

/-- DragOverlay::DropZone (dock_drag.h). -/
inductive DropZone
  | None
  | Left
  | Right
  | Top
  | Bottom
  | Center
  | Tab
deriving DecidableEq, BEq, Repr

/-- A drop candidate collected during a floating drag (dock_framework.h:
DropCandidate).  `targetId` embeds the Node* target (none for the
root-edge candidate, which targets the whole root). -/
structure DropCandidate where
  zone : DropZone := DropZone.None
  targetId : Option ℕ := none
  bounds : DFRect := ⟨0, 0, 0, 0⟩
  overlayIndex : ℕ := 0
  depth : ℤ := 0
deriving DecidableEq, Repr

/-- The isEdgeZone lambda shared by updateFloatingDrag and endFloatingDrag
(dock_framework.cpp lines 1244-1250 and 1350-1356). -/
def isEdgeZone : DropZone → Bool
  | DropZone.Left => true
  | DropZone.Right => true
  | DropZone.Top => true
  | DropZone.Bottom => true
  | _ => false

/-- DockManager::edgeDockActivateDistancePx_ (dock_framework.h line
186). -/
def edgeDockActivateDistancePx : ℚ := 8

/-- The forceRootEdgePriorityDistancePx constant of both selection loops. -/
def forceRootEdgePriorityDistancePx : ℚ := 20

/-- The minimum of the pointer's four container-edge distances, as computed
at dock_framework.cpp lines 1083-1087 (and identically at 1329-1333). -/
def edgeMinDist (rc : DFRect) (p : DFPoint) : ℚ :=
  let leftDist := |p.x - rc.x|
  let rightDist := |rc.x + rc.width - p.x|
  let topDist := |p.y - rc.y|
  let bottomDist := |rc.y + rc.height - p.y|
  min (min leftDist rightDist) (min topDist bottomDist)

/-- The nearest container edge, as computed by the cascading comparisons at
dock_framework.cpp lines 1089-1103 (and identically at 1335-1348). -/
def nearestEdge (rc : DFRect) (p : DFPoint) : DropZone :=
  let leftDist := |p.x - rc.x|
  let rightDist := |rc.x + rc.width - p.x|
  let topDist := |p.y - rc.y|
  let bottomDist := |rc.y + rc.height - p.y|
  let s1 := (DropZone.Left, leftDist)
  let s2 := if rightDist < s1.2 then (DropZone.Right, rightDist) else s1
  let s3 := if topDist < s2.2 then (DropZone.Top, topDist) else s2
  if bottomDist < s3.2 then DropZone.Bottom else s3.1

/-- Whether the selection loops of updateFloatingDrag (dock_framework.cpp
lines 1257-1268) and endFloatingDrag (lines 1362-1371) consider a
candidate at all: the loop skips a candidate unless the pointer is inside
its bounds or the candidate is an inner (depth > 0) edge candidate whose
zone is the nearest container edge within the activation distance. -/
def candidateActive (rc : DFRect) (p : DFPoint) (c : DropCandidate) : Bool :=
  let edgeNearAndMatching :=
    decide (0 < c.depth) && isEdgeZone c.zone &&
    (c.zone == nearestEdge rc p) &&
    decide (edgeMinDist rc p ≤ edgeDockActivateDistancePx)
  c.bounds.contains p || edgeNearAndMatching

/-- The candidate activity rule as the specification words it: a root-edge
candidate (depth 0) activates by proximity to its own edge alone, every
other candidate only by literal containment. -/
def claimCandidateActive (rc : DFRect) (p : DFPoint) (c : DropCandidate) : Bool :=
  let edgeDist : ℚ :=
    match c.zone with
    | DropZone.Left => |p.x - rc.x|
    | DropZone.Right => |rc.x + rc.width - p.x|
    | DropZone.Top => |p.y - rc.y|
    | DropZone.Bottom => |rc.y + rc.height - p.y|
    | _ => 0
  if isEdgeZone c.zone && c.depth == 0 then
    decide (edgeDist ≤ edgeDockActivateDistancePx)
  else c.bounds.contains p

/-- The priority assignment of both selection loops (dock_framework.cpp
lines 1269-1283 and 1372-1383). -/
def candidatePriority (rc : DFRect) (p : DFPoint) (c : DropCandidate) : ℤ :=
  if c.zone == DropZone.Tab || c.zone == DropZone.Center then 5
  else if isEdgeZone c.zone then
    if c.depth == 0 ∧ edgeMinDist rc p ≤ forceRootEdgePriorityDistancePx then 6
    else if 0 < c.depth then 4 else 3
  else 0

/-- The shared best-candidate selection loop of updateFloatingDrag and
endFloatingDrag: skip inactive candidates, then prefer higher priority,
then greater depth, then smaller area.  The initial bestArea value is
never read (the `!hovered` disjunct takes the first active candidate
unconditionally, as with the C++ FLT_MAX seed). -/
def selLoop (rc : DFRect) (p : DFPoint) :
    List DropCandidate → Option DropCandidate → ℚ → ℤ → ℤ → Option DropCandidate
  | [], best, _, _, _ => best
  | c :: rest, best, bArea, bDepth, bPrio =>
    if candidateActive rc p c then
      let area := c.bounds.width * c.bounds.height
      let prio := candidatePriority rc p c
      if best.isNone || decide (bPrio < prio) ||
          (prio == bPrio && decide (bDepth < c.depth)) ||
          (prio == bPrio && c.depth == bDepth && decide (area < bArea)) then
        selLoop rc p rest (some c) area c.depth prio
      else selLoop rc p rest best bArea bDepth bPrio
    else selLoop rc p rest best bArea bDepth bPrio

/-- The candidate chosen by either selection loop over the collected
candidate vector. -/
def selectCandidate (rc : DFRect) (p : DFPoint) (cands : List DropCandidate) :
    Option DropCandidate :=
  selLoop rc p cands none 0 (-1) (-1)

/-- Any candidate the selection loop returns passed the activity test. -/
theorem selLoop_active (rc : DFRect) (p : DFPoint) :
    ∀ (cands : List DropCandidate) (best : Option DropCandidate)
      (bArea : ℚ) (bDepth bPrio : ℤ),
      (∀ x, best = some x → candidateActive rc p x = true) →
      ∀ c, selLoop rc p cands best bArea bDepth bPrio = some c →
        candidateActive rc p c = true := by
  intro cands
  induction cands with
  | nil =>
    intro best bArea bDepth bPrio hbest c hc
    rw [selLoop] at hc
    exact hbest c hc
  | cons x rest ih =>
    intro best bArea bDepth bPrio hbest c hc
    rw [selLoop] at hc
    by_cases hact : candidateActive rc p x = true
    · rw [if_pos hact] at hc
      dsimp only at hc
      by_cases hrepl : (best.isNone ||
          decide (bPrio < candidatePriority rc p x) ||
          (candidatePriority rc p x == bPrio && decide (bDepth < x.depth)) ||
          (candidatePriority rc p x == bPrio && x.depth == bDepth &&
            decide (x.bounds.width * x.bounds.height < bArea))) = true
      · rw [if_pos hrepl] at hc
        refine ih (some x) _ _ _ ?_ c hc
        intro y hy
        rw [Option.some.injEq] at hy
        rw [← hy]
        exact hact
      · rw [if_neg hrepl] at hc
        exact ih best bArea bDepth bPrio hbest c hc
    · rw [if_neg hact] at hc
      exact ih best bArea bDepth bPrio hbest c hc

/-- Boolean equality on DropZone is reflexive. -/
theorem DropZone.beq_self (z : DropZone) : (z == z) = true := by
  cases z <;> rfl

/-- C1: in both floating-drag evaluations (hover and release), a depth-0
candidate — in particular the root-edge candidate — is considered only
when the pointer is literally inside its bounds rectangle; proximity
activation (nearest matching edge within edgeDockActivateDistancePx_)
applies exclusively to inner (depth > 0) edge candidates; and any
candidate either loop selects passed this activity test. -/
theorem C1_theorem :
    (∀ (rc : DFRect) (p : DFPoint) (c : DropCandidate), c.depth = 0 →
      candidateActive rc p c = c.bounds.contains p) ∧
    (∀ (rc : DFRect) (p : DFPoint) (c : DropCandidate),
      isEdgeZone c.zone = false →
      candidateActive rc p c = c.bounds.contains p) ∧
    (∀ (rc : DFRect) (p : DFPoint) (c : DropCandidate),
      0 < c.depth → isEdgeZone c.zone = true → c.zone = nearestEdge rc p →
      edgeMinDist rc p ≤ edgeDockActivateDistancePx →
      candidateActive rc p c = true) ∧
    (∀ (rc : DFRect) (p : DFPoint) (cands : List DropCandidate)
        (c : DropCandidate),
      selectCandidate rc p cands = some c →
      candidateActive rc p c = true) := by
  refine ⟨?_, ?_, ?_, ?_⟩
  · intro rc p c h
    simp [candidateActive, h]
  · intro rc p c h
    simp [candidateActive, h]
  · intro rc p c h1 h2 h3 h4
    simp only [candidateActive, Bool.or_eq_true, Bool.and_eq_true,
      decide_eq_true_eq]
    right
    exact ⟨⟨⟨h1, h2⟩, by rw [h3]; exact DropZone.beq_self _⟩, h4⟩
  · intro rc p cands c h
    exact selLoop_active rc p cands none 0 (-1) (-1)
      (fun x hx => Option.noConfusion hx) c h

/-- C1 counterexample: container 100x100, pointer (4,50), 4px from the
left edge (within the 8px activation distance).  The thin depth-0
root-edge candidate does not contain the pointer: the specification
activates it by proximity, the code does not; the inner depth-1 left
candidate does not contain the pointer either: the specification leaves it
inactive, the code activates it by proximity. -/
theorem C1_counterexample :
    claimCandidateActive ⟨0, 0, 100, 100⟩ ⟨4, 50⟩
      { zone := DropZone.Left, targetId := none, bounds := ⟨1, 1, 2, 98⟩,
        overlayIndex := 0, depth := 0 } = true ∧
    candidateActive ⟨0, 0, 100, 100⟩ ⟨4, 50⟩
      { zone := DropZone.Left, targetId := none, bounds := ⟨1, 1, 2, 98⟩,
        overlayIndex := 0, depth := 0 } = false ∧
    claimCandidateActive ⟨0, 0, 100, 100⟩ ⟨4, 50⟩
      { zone := DropZone.Left, targetId := some 1, bounds := ⟨10, 10, 20, 80⟩,
        overlayIndex := 1, depth := 1 } = false ∧
    candidateActive ⟨0, 0, 100, 100⟩ ⟨4, 50⟩
      { zone := DropZone.Left, targetId := some 1, bounds := ⟨10, 10, 20, 80⟩,
        overlayIndex := 1, depth := 1 } = true := by
  refine ⟨?_, ?_, ?_, ?_⟩
  · norm_num [claimCandidateActive, isEdgeZone, edgeDockActivateDistancePx]
  · norm_num [candidateActive, isEdgeZone, nearestEdge, edgeMinDist,
      edgeDockActivateDistancePx, DFRect.contains]
  · norm_num [claimCandidateActive, isEdgeZone, DFRect.contains]
  · norm_num [candidateActive, isEdgeZone, nearestEdge, edgeMinDist,
      edgeDockActivateDistancePx, DFRect.contains]
    rfl

/-- C1 witness: the depth-0 root-edge candidate of the counterexample
scene is governed by containment alone. -/
theorem C1_witness :
    candidateActive ⟨0, 0, 100, 100⟩ ⟨4, 50⟩
      { zone := DropZone.Left, targetId := none, bounds := ⟨1, 1, 2, 98⟩,
        overlayIndex := 0, depth := 0 }
      = DFRect.contains ⟨1, 1, 2, 98⟩ ⟨4, 50⟩ :=
  C1_theorem.1 ⟨0, 0, 100, 100⟩ ⟨4, 50⟩
    { zone := DropZone.Left, targetId := none, bounds := ⟨1, 1, 2, 98⟩,
      overlayIndex := 0, depth := 0 } rfl
